import Mathlib

/-!
Verification development for the URL analysis and classification backend.

The development shallowly embeds the feedback/consensus pipeline
(`app/ml/adaptive_learner.py`), the lexical feature helpers
(`app/ml/feature_extraction.py`) and the model-selection loop of
(`app/ml/model_trainer.py`).  Strings are modelled as `List Char`
wrapped in `String`; Python floats that only ever hold small decimal
constants (0.6, confidences) are modelled as exact rationals; fallible
steps are modelled with `Option`/`Except`.
-/

namespace UrlCheck

/-! ## Python string primitives -/

/-- Python `str.lower` on one character, for the ASCII range (the inputs the
pipeline handles are ASCII URLs; Unicode lowering is out of scope). -/
def pyLowerChar (c : Char) : Char :=
  if 'A' ≤ c ∧ c ≤ 'Z' then Char.ofNat (c.toNat + 32) else c

/-- Python `str.lower` over a character list. -/
def pyLower (l : List Char) : List Char := l.map pyLowerChar

/-- The characters stripped from the left of a URL by CPython `urlsplit`
(`_WHATWG_C0_CONTROL_OR_SPACE`): C0 controls and the space. -/
def isC0OrSpace (c : Char) : Bool := c.toNat ≤ 32

/-- The characters removed everywhere by CPython `urlsplit`
(`_UNSAFE_URL_BYTES_TO_REMOVE`): tab, CR, LF. -/
def isUnsafeByte (c : Char) : Bool := c = '\t' || c = '\r' || c = '\n'

/-- CPython `urlsplit` input cleaning: lstrip of C0-control/space, then
removal of tab/CR/LF everywhere. -/
def cleanUrl (l : List Char) : List Char :=
  (l.dropWhile isC0OrSpace).filter (fun c => !isUnsafeByte c)

/-- Membership in CPython `urllib.parse.scheme_chars`. -/
def isSchemeChar (c : Char) : Bool :=
  ('a' ≤ c && c ≤ 'z') || ('A' ≤ c && c ≤ 'Z') || ('0' ≤ c && c ≤ '9') ||
    c = '+' || c = '-' || c = '.'

/-- ASCII letter test (CPython guards the scheme split with
`url[0].isascii() and url[0].isalpha()`, which for a `Char` is exactly
membership in the two ASCII letter ranges). -/
def isAsciiAlpha (c : Char) : Bool :=
  ('a' ≤ c && c ≤ 'z') || ('A' ≤ c && c ≤ 'Z')

/-- Python `str.rstrip('/')`: drop every trailing slash. -/
def rstripSlash (l : List Char) : List Char :=
  (l.reverse.dropWhile (· = '/')).reverse

/-- Fuel-driven worker for Python `str.replace(pat, '')` with a nonempty
pattern `p :: ps`: scan left to right, delete each non-overlapping
occurrence, and never rescan across a deletion point. The fuel is bounded
below by the list length so the guard branch is unreachable. -/
def pyReplaceGo (p : Char) (ps : List Char) : Nat → List Char → List Char
  | _, [] => []
  | 0, l => l
  | fuel + 1, c :: cs =>
    if (p :: ps).isPrefixOf (c :: cs) then pyReplaceGo p ps fuel (cs.drop ps.length)
    else c :: pyReplaceGo p ps fuel cs

/-- Python `str.replace(pat, '')`. An empty pattern inserts the empty
replacement everywhere, which is the identity. -/
def pyReplace (pat l : List Char) : List Char :=
  match pat with
  | [] => l
  | p :: ps => pyReplaceGo p ps l.length l

/-- Fuel-driven worker for Python `str.count(pat)` with a nonempty pattern:
count non-overlapping occurrences left to right. -/
def pyCountGo (p : Char) (ps : List Char) : Nat → List Char → Nat
  | _, [] => 0
  | 0, _ => 0
  | fuel + 1, c :: cs =>
    if (p :: ps).isPrefixOf (c :: cs) then pyCountGo p ps fuel (cs.drop ps.length) + 1
    else pyCountGo p ps fuel cs

/-- Python `str.count(pat)` (`''.count` of the empty pattern is `len + 1`). -/
def pyCount (pat l : List Char) : Nat :=
  match pat with
  | [] => l.length + 1
  | p :: ps => pyCountGo p ps l.length l

/-- Python `str.split(sep)` for a one-character separator. -/
def pySplitChar (sep : Char) : List Char → List (List Char)
  | [] => [[]]
  | c :: cs =>
    let r := pySplitChar sep cs
    if c = sep then [] :: r
    else
      match r with
      | [] => [[c]]
      | h :: t => (c :: h) :: t

/-- Python substring membership `pat in l` (case-sensitive). -/
def hasSubstr (pat : List Char) : List Char → Bool
  | [] => pat.isEmpty
  | c :: cs => pat.isPrefixOf (c :: cs) || hasSubstr pat cs

/-! ## CPython `urllib.parse.urlparse`, restricted to the fields the
normaliser reads (`netloc` and `path`).

The model follows `urlsplit` of CPython 3.10-era (with the security
backports): clean the input, split a scheme when the part before the first
`':'` starts with an ASCII letter and is made of scheme characters, split
a `//`-led netloc at the first of `/?#`, reject a netloc with mismatched
square brackets (`Invalid IPv6 URL`), drop the fragment after the first
`#` and the query after the first `?`, and finally split `;params` off the
last path segment (`urlparse` on top of `urlsplit`).  The NFKC netloc
check is omitted: it can only fire on non-ASCII input, which the ASCII
model does not cover. -/

/-- Scheme removal step of `urlsplit` (the scheme itself is dropped since
the normaliser never reads it). -/
def schemeDrop (l : List Char) : List Char :=
  match l.findIdx? (· = ':') with
  | none => l
  | some i =>
    if 0 < i ∧ isAsciiAlpha (l.headD ' ') ∧ (l.take i).all isSchemeChar
    then l.drop (i + 1) else l

/-- Characters that terminate the netloc in `_splitnetloc`. -/
def isNetlocEnd (c : Char) : Bool := c = '/' || c = '?' || c = '#'

/-- Netloc split of `urlsplit`: only when the remainder starts with `//`. -/
def netlocSplit (l : List Char) : List Char × List Char :=
  if l.take 2 = ['/', '/'] then
    ((l.drop 2).takeWhile (fun c => !isNetlocEnd c),
     (l.drop 2).dropWhile (fun c => !isNetlocEnd c))
  else ([], l)

/-- `_splitparams` of `urlparse`, guarded by its caller's `';' in url`
test: params are split off the last segment when the path has a slash,
else at the first `';'`. Only the path part is returned. -/
def pySplitparams (l : List Char) : List Char :=
  if ';' ∈ l then
    if '/' ∈ l then
      if ';' ∈ (l.reverse.takeWhile (· ≠ '/')).reverse then
        (l.reverse.dropWhile (· ≠ '/')).reverse ++
          ((l.reverse.takeWhile (· ≠ '/')).reverse).takeWhile (· ≠ ';')
      else l
    else l.takeWhile (· ≠ ';')
  else l

/-- Path of a `urlparse` result: remainder after the netloc, with the
fragment, the query and the params removed in that order. -/
def pathOf (rest : List Char) : List Char :=
  pySplitparams ((rest.takeWhile (· ≠ '#')).takeWhile (· ≠ '?'))

/-- `urlparse`, reduced to the `(netloc, path)` pair; `none` is the
`ValueError` branch (mismatched netloc brackets). -/
def pyUrlparseNetlocPath (l : List Char) : Option (List Char × List Char) :=
  if xor ((netlocSplit (schemeDrop (cleanUrl l))).1.contains '[')
      ((netlocSplit (schemeDrop (cleanUrl l))).1.contains ']') then none
  else some ((netlocSplit (schemeDrop (cleanUrl l))).1,
    pathOf (netlocSplit (schemeDrop (cleanUrl l))).2)

/-! ## `AdaptiveLearner._normalize_url` -/

/-- The pattern removed by the normaliser. -/
def wwwPat : List Char := ['w', 'w', 'w', '.']

/-- Normalisation pipeline after a successful parse of the lowered URL:
netloc and path concatenated, trailing slashes stripped, every `www.`
occurrence deleted. -/
def normFromParse (w : List Char) : Option (List Char) :=
  (pyUrlparseNetlocPath w).map (fun np => pyReplace wwwPat (rstripSlash (np.1 ++ np.2)))

/-- `AdaptiveLearner._normalize_url` on character lists: lower the URL,
parse it, combine netloc and path, rstrip `'/'`, delete `'www.'`; any
parse exception is caught and the original URL returned unchanged. -/
def normalizeList (u : List Char) : List Char :=
  (normFromParse (pyLower u)).getD u

/-- `AdaptiveLearner._normalize_url`. -/
def _normalize_url (url : String) : String :=
  ⟨normalizeList url.data⟩

/-! ## The feedback store (`URLFeedback` rows of `app/models/url_feedback.py`)

Timestamps are irrelevant to every claim and omitted.  The MD5 content
hash `_generate_url_hash` is modelled as the identity on the normalized
URL: it is used by the code only as an equality key for `normalized_url`
(the spec accepts hash collisions as "same URL", and no claim concerns
collisions).  Confidences are exact rationals; the float literal `0.6`
is modelled as `3/5`, which agrees with the float comparisons
`count >= n * 0.6` for every feasible count. -/

structure URLFeedback where
  url : String
  normalized_url : String
  type : String
  confidence : ℚ
  feedback_count : Nat
  conflicting_feedbacks : Nat
  last_feedback_type : String
  consensus_reached : Bool
  used_in_training : Bool
deriving DecidableEq

/-- The label string written for a boolean feedback. -/
def labelOf (is_malicious : Bool) : String :=
  if is_malicious then "malicious" else "benign"

/-- The update branch of `process_feedback` (existing record found):
increment the count, append the label to the comma-joined history, track
type changes and conflicts, reset the training flag, and from two
feedbacks on recompute consensus (either label holding at least 60% of
the history) and the majority type (ties to malicious). -/
def updateRecord (r : URLFeedback) (is_malicious : Bool) (confidence : ℚ) : URLFeedback :=
  let is_type_change : Bool := (decide (r.type = "malicious")) != is_malicious
  let new_feedback_count := r.feedback_count + 1
  let new_last : String := r.last_feedback_type ++ "," ++ labelOf is_malicious
  let history := pySplitChar ',' new_last.data
  let malicious_count := (history.filter (· = "malicious".data)).length
  let benign_count := history.length - malicious_count
  let base : URLFeedback :=
    { r with
      type := labelOf is_malicious
      confidence := if is_type_change then confidence else max confidence r.confidence
      feedback_count := new_feedback_count
      conflicting_feedbacks :=
        if is_type_change then r.conflicting_feedbacks + 1 else r.conflicting_feedbacks
      last_feedback_type := new_last
      used_in_training := false }
  if 2 ≤ new_feedback_count then
    { base with
      consensus_reached :=
        decide ((new_feedback_count : ℚ) * (3 / 5) ≤ (malicious_count : ℚ)) ||
        decide ((new_feedback_count : ℚ) * (3 / 5) ≤ (benign_count : ℚ))
      type := if benign_count ≤ malicious_count then "malicious" else "benign" }
  else base

/-- The creation branch of `process_feedback` (no record for the hash). -/
def createRecord (url : String) (is_malicious : Bool) (confidence : ℚ) : URLFeedback :=
  { url := url
    normalized_url := _normalize_url url
    type := labelOf is_malicious
    confidence := confidence
    feedback_count := 1
    conflicting_feedbacks := 0
    last_feedback_type := labelOf is_malicious
    consensus_reached := false
    used_in_training := false }

/-- The retraining-eligibility filter used by `process_feedback`,
`retrain_model` and `get_training_stats`:
`used_in_training == False AND (consensus_reached == True OR feedback_count >= 2)`. -/
def eligibleForTraining (r : URLFeedback) : Bool :=
  !r.used_in_training && (r.consensus_reached || decide (2 ≤ r.feedback_count))

/-- The `unused_samples` count of `process_feedback` (same query as
`unused_records` in `get_training_stats`). -/
def unused_samples (db : List URLFeedback) : Nat :=
  (db.filter eligibleForTraining).length

/-- `AdaptiveLearner.retrain_threshold`. -/
def retrain_threshold : Nat := 1000

/-- Replace the first record satisfying the key predicate (the mutation
of the row found by the hash lookup). -/
def replaceFirst (p : URLFeedback → Bool) (f : URLFeedback → URLFeedback) :
    List URLFeedback → List URLFeedback
  | [] => []
  | r :: rs => if p r then f r :: rs else r :: replaceFirst p f rs

/-- The part of the `process_feedback` response the claims concern. -/
structure FeedbackResponse where
  feedback_status : String
  needs_retraining : Bool
  unused_samples : Nat
deriving DecidableEq

/-- `AdaptiveLearner.process_feedback`: normalise, look the record up by
its content key, update or create it, then count the unused eligible
records of the updated store and report whether they reach the retrain
threshold. -/
def process_feedback (url : String) (is_malicious : Bool) (confidence : ℚ)
    (db : List URLFeedback) : List URLFeedback × FeedbackResponse :=
  let key := _normalize_url url
  let existing := db.find? (fun r => r.normalized_url == key)
  let db' :=
    match existing with
    | some _ =>
      replaceFirst (fun r => r.normalized_url == key)
        (fun r => updateRecord r is_malicious confidence) db
    | none => db ++ [createRecord url is_malicious confidence]
  let cnt := unused_samples db'
  (db',
   { feedback_status := match existing with | some _ => "updated" | none => "new"
     needs_retraining := decide (retrain_threshold ≤ cnt)
     unused_samples := cnt })

/-- The part of the `get_training_stats` response the claims concern. -/
structure TrainingStats where
  total_records : Nat
  unused_eligible_records : Nat
  consensus_records : Nat
  needs_retraining : Bool
  remaining_until_retrain : Nat
deriving DecidableEq

/-- `AdaptiveLearner.get_training_stats` (`max(0, threshold - unused)` is
truncated subtraction on `Nat`). -/
def get_training_stats (db : List URLFeedback) : TrainingStats :=
  let unused := unused_samples db
  { total_records := db.length
    unused_eligible_records := unused
    consensus_records := (db.filter (·.consensus_reached)).length
    needs_retraining := decide (retrain_threshold ≤ unused)
    remaining_until_retrain := retrain_threshold - unused }

/-- The part of the `retrain_model` report the claims concern. -/
structure RetrainReport where
  message : String
  new_samples_used : Nat
  failed_samples : Nat
deriving DecidableEq

/-- The marking loop of `retrain_model`: every fetched eligible record is
set `used_in_training := true` (the loop runs over `training_records`,
the list returned by the eligibility query). -/
def markUsed (db : List URLFeedback) : List URLFeedback :=
  db.map (fun r => if eligibleForTraining r then { r with used_in_training := true } else r)

/-- `AdaptiveLearner.retrain_model`.  Feature extraction is the external
collaborator `extract` (`none` is a per-URL `FeatureExtractionError`,
caught, counted as failed and skipped).  The ingestion/transformation and
trainer calls are further external collaborators modelled as succeeding;
the claims under verification concern the eligibility gate, the per-URL
failure handling and the marking step.  Below the threshold the code
returns a no-op report without touching the store; with no successful
extraction at all it raises before marking. -/
def retrain_model (extract : String → Option Unit) (db : List URLFeedback) :
    Except String (List URLFeedback × RetrainReport) :=
  let training_records := db.filter eligibleForTraining
  if training_records.length < retrain_threshold then
    .ok (db, { message := "Not enough new data for retraining"
               new_samples_used := 0, failed_samples := 0 })
  else
    let processed := (training_records.filter (fun r => (extract r.url).isSome)).length
    let failed := (training_records.filter (fun r => (extract r.url).isNone)).length
    if processed = 0 then .error "No valid features extracted from feedback data"
    else
      .ok (markUsed db,
           { message := "Model retrained successfully"
             new_samples_used := processed, failed_samples := failed })

/-- `AdaptiveLearner._resolve_conflicting_feedback` (embedded for
completeness; `process_feedback` never calls it). `none` is the Python
`return None` fall-through. -/
def _resolve_conflicting_feedback (r : URLFeedback) (new_feedback : Bool)
    (new_confidence : ℚ) : Option URLFeedback :=
  let existing_type : Bool := decide (r.type = "malicious")
  if r.consensus_reached then
    if max (19 / 20 : ℚ) r.confidence < new_confidence then
      some { r with
        type := labelOf new_feedback
        confidence := new_confidence
        feedback_count := r.feedback_count + 1
        conflicting_feedbacks := r.conflicting_feedbacks + 1
        last_feedback_type := labelOf new_feedback
        consensus_reached := false }
    else none
  else if existing_type != new_feedback then
    if r.confidence + 1 / 10 < new_confidence then
      some { r with
        type := labelOf new_feedback
        confidence := new_confidence
        feedback_count := r.feedback_count + 1
        conflicting_feedbacks := r.conflicting_feedbacks + 1
        last_feedback_type := labelOf new_feedback
        consensus_reached := false }
    else
      let previous_feedbacks := pySplitChar ',' r.last_feedback_type.data
      let same_feedback_count :=
        (previous_feedbacks.filter (· = (labelOf new_feedback).data)).length
      if (previous_feedbacks.length : ℚ) / 2 ≤ (same_feedback_count : ℚ) then
        some { r with
          type := labelOf new_feedback
          confidence := max r.confidence new_confidence
          feedback_count := r.feedback_count + 1
          conflicting_feedbacks := r.conflicting_feedbacks + 1
          last_feedback_type := r.last_feedback_type ++ "," ++ labelOf new_feedback
          consensus_reached := true }
      else none
  else
    some { r with
      type := labelOf new_feedback
      confidence := max r.confidence new_confidence
      feedback_count := r.feedback_count + 1
      conflicting_feedbacks := r.conflicting_feedbacks
      last_feedback_type := r.last_feedback_type ++ "," ++ labelOf new_feedback
      consensus_reached := if 2 ≤ r.feedback_count then true else false }

/-! ## Feature extraction (`FeatureExtractor`) -/

/-- The static suspicious-word list, exactly as in the source (note the
capitalised first entry). -/
def suspicious_words : List String :=
  ["PayPal", "login", "signin", "bank", "account", "update", "free",
   "lucky", "service", "bonus", "ebayisapi", "webscr", "secure",
   "banking", "confirm", "verify", "authentication", "wallet"]

/-- `FeatureExtractor._suspicious_words`: `1` when some list word, in its
original casing, is a substring of the lowercased URL. -/
def _suspicious_words (url : String) : Nat :=
  if suspicious_words.any (fun w => hasSubstr w.data (pyLower url.data)) then 1 else 0

/-- Modelled from the spec: the `sus_url` feature as the spec describes
it, a case-insensitive substring match of the static list (both the word
and the URL lowercased). -/
def specSusUrl (url : String) : Nat :=
  if suspicious_words.any (fun w => hasSubstr (pyLower w.data) (pyLower url.data))
  then 1 else 0

/-- `FeatureExtractor._no_of_embed`: `url.count('//') - 1`. -/
def _no_of_embed (url : String) : Int :=
  (pyCount ['/', '/'] url.data : Int) - 1

/-! ## Model selection (`ModelTrainer.initiate_model_training`)

Fitting, hyperparameter search and the sklearn metric computations are
external collaborators: a candidate is modelled by the two scores the
selection loop reads plus the held-out test metrics stored in its
result entry; `none` is a candidate whose training raised and was
skipped.  Scores are rationals. -/

structure CandidateOutcome where
  name : String
  cv_f1 : ℚ
  test_accuracy : ℚ
  test_precision : ℚ
  test_recall : ℚ
  test_f1 : ℚ
deriving DecidableEq

/-- One iteration of the training loop's best-tracking: starting from
`best_model = None, best_score = 0`, a successfully trained candidate
replaces the incumbent iff its cross-validation weighted F1 strictly
exceeds the best score. -/
def selectStep (acc : Option CandidateOutcome × ℚ) (c : Option CandidateOutcome) :
    Option CandidateOutcome × ℚ :=
  match c with
  | none => acc
  | some c => if acc.2 < c.cv_f1 then (some c, c.cv_f1) else acc

/-- The best-candidate selection of `initiate_model_training`. -/
def select_best (cands : List (Option CandidateOutcome)) : Option CandidateOutcome :=
  (cands.foldl selectStep (none, 0)).1

/-- `initiate_model_training`, reduced to its selection outcome: with no
successfully trained model it raises `ModelTrainerError`. -/
def initiate_model_training (cands : List (Option CandidateOutcome)) :
    Except String CandidateOutcome :=
  match select_best cands with
  | none => .error "No models were successfully trained"
  | some c => .ok c

/-- Modelled from the spec: selection by the highest held-out (test-split)
weighted F1, ties broken in favour of the first candidate evaluated. -/
def specSelectBestByTestF1 (cands : List (Option CandidateOutcome)) :
    Option CandidateOutcome :=
  let done := cands.filterMap id
  done.find? (fun c => done.all (fun d => decide (d.test_f1 ≤ c.test_f1)))

/-- The selection rule the code actually implements, in closed form: the
first successfully trained candidate attaining the maximal
cross-validation weighted F1, provided that maximum is strictly positive. -/
def codeSelectRule (cands : List (Option CandidateOutcome)) : Option CandidateOutcome :=
  let done := cands.filterMap id
  done.find? (fun c => decide (0 < c.cv_f1) && done.all (fun d => decide (d.cv_f1 ≤ c.cv_f1)))

/-! ## Spec-side reading of the normaliser -/

/-- Modelled from the spec: normalisation as the claim reads it —
lowercased, netloc and path only, trailing slashes stripped, and only a
leading `www.` removed. -/
def specNormalizeLeadingWWW (u : List Char) : List Char :=
  match pyUrlparseNetlocPath (pyLower u) with
  | none => u
  | some np =>
    let s := rstripSlash (np.1 ++ np.2)
    if wwwPat.isPrefixOf s then s.drop 4 else s

/-- Well-formed history: every entry of the comma-joined feedback history
is one of the two labels (true of every record the system creates). -/
def labelsOk (s : String) : Prop :=
  ∀ t ∈ pySplitChar ',' s.data, t = "malicious".data ∨ t = "benign".data

instance (s : String) : Decidable (labelsOk s) := by
  unfold labelsOk; infer_instance

/-! ## Concrete fixtures for boundary and counterexample theorems -/

/-- A record one feedback old, as the creation branch makes it. -/
def sampleFresh : URLFeedback :=
  { url := "http://a/b", normalized_url := "a/b", type := "malicious"
    confidence := mkRat 1 2, feedback_count := 1, conflicting_feedbacks := 0
    last_feedback_type := "malicious", consensus_reached := false
    used_in_training := false }

/-- An eligible record (consensus reached, never used in training). -/
def sampleEligible : URLFeedback :=
  { url := "http://site.example/a", normalized_url := "site.example/a"
    type := "malicious", confidence := mkRat 9 10, feedback_count := 3
    conflicting_feedbacks := 0
    last_feedback_type := "malicious,malicious,malicious"
    consensus_reached := true, used_in_training := false }

/-- An eligible record whose URL the extraction fixture fails on. -/
def sampleBadUrl : URLFeedback :=
  { url := "bad", normalized_url := "bad", type := "benign"
    confidence := mkRat 9 10, feedback_count := 2, conflicting_feedbacks := 0
    last_feedback_type := "benign,benign", consensus_reached := true
    used_in_training := false }

/-- Extraction fixture: fails exactly on the URL `"bad"`. -/
def exC3Extract : String → Option Unit :=
  fun u => if u = "bad" then none else some ()

/-- A store with 1000 eligible records, one of which fails extraction. -/
def exC3Db : List URLFeedback := sampleBadUrl :: List.replicate 999 sampleEligible

/-- A store with 999 eligible records. -/
def exC2Db : List URLFeedback := List.replicate 999 sampleEligible

/-- Candidate with the better cross-validation F1 but the worse held-out F1. -/
def candA : CandidateOutcome :=
  { name := "RandomForest", cv_f1 := mkRat 9 10, test_accuracy := mkRat 1 2
    test_precision := mkRat 1 2, test_recall := mkRat 1 2, test_f1 := mkRat 1 2 }

/-- Candidate with the better held-out F1 but the worse cross-validation F1. -/
def candB : CandidateOutcome :=
  { name := "XGBoost", cv_f1 := mkRat 4 5, test_accuracy := mkRat 19 20
    test_precision := mkRat 19 20, test_recall := mkRat 19 20, test_f1 := mkRat 19 20 }

/-- A candidate list on which the two selection rules disagree. -/
def exC4Cands : List (Option CandidateOutcome) := [some candA, some candB]

/-- History label counts of a record: `(malicious, benign)` occurrences
across the comma-joined feedback history. -/
def historyCounts (r : URLFeedback) : Nat × Nat :=
  (((pySplitChar ',' r.last_feedback_type.data).filter (· = "malicious".data)).length,
   ((pySplitChar ',' r.last_feedback_type.data).filter (· = "benign".data)).length)

/-! # Helper lemmas -/

theorem pySplitChar_ne_nil (sep : Char) (l : List Char) : pySplitChar sep l ≠ [] := by
  cases l with
  | nil => simp [pySplitChar]
  | cons c cs =>
    simp only [pySplitChar]
    split
    · simp
    · match h : pySplitChar sep cs with
      | [] => simp
      | h' :: t => simp

theorem pySplitChar_append (sep : Char) (a b : List Char) :
    pySplitChar sep (a ++ sep :: b) = pySplitChar sep a ++ pySplitChar sep b := by
  induction a with
  | nil => simp [pySplitChar]
  | cons c cs ih =>
    simp only [List.cons_append, pySplitChar, List.append_eq, ih]
    split
    · rfl
    · match h : pySplitChar sep cs with
      | [] => exact absurd h (pySplitChar_ne_nil sep cs)
      | h' :: t => simp [h]

theorem two_label_length (A B : List Char) (hne : A ≠ B) :
    ∀ (l : List (List Char)), (∀ t ∈ l, t = A ∨ t = B) →
      (l.filter (· = A)).length + (l.filter (· = B)).length = l.length := by
  intro l
  induction l with
  | nil => intro _; rfl
  | cons t ts ih =>
    intro h
    have ht := h t (List.mem_cons_self t ts)
    have hts : ∀ x ∈ ts, x = A ∨ x = B := fun x hx => h x (List.mem_cons_of_mem t hx)
    have hih := ih hts
    rcases ht with rfl | rfl
    · simp only [List.filter_cons, decide_eq_true_eq, if_pos rfl, hne, if_neg,
        List.length_cons, if_true, if_false, ite_true, ite_false]
      omega
    · have h' : ¬ (t = A) := fun hh => hne hh.symm
      simp only [List.filter_cons, decide_eq_true_eq, if_pos rfl, h', if_neg,
        List.length_cons, if_true, if_false, ite_true, ite_false]
      omega

theorem sixty_iff (n m : Nat) : ((n : ℚ) * (3 / 5) ≤ (m : ℚ)) ↔ 3 * n ≤ 5 * m := by
  rw [show ((n : ℚ) * (3 / 5)) = (3 * n : ℚ) / 5 by ring,
    div_le_iff₀ (by norm_num : (0 : ℚ) < 5)]
  constructor
  · intro h
    have : ((3 * n : Nat) : ℚ) ≤ ((5 * m : Nat) : ℚ) := by push_cast; linarith
    exact_mod_cast this
  · intro h
    have : ((3 * n : Nat) : ℚ) ≤ ((5 * m : Nat) : ℚ) := by exact_mod_cast h
    push_cast at this
    linarith

theorem split_label (m : Bool) : pySplitChar ',' (labelOf m).data = [(labelOf m).data] := by
  cases m <;> decide

theorem update_last (r : URLFeedback) (m : Bool) (conf : ℚ) :
    (updateRecord r m conf).last_feedback_type =
      r.last_feedback_type ++ "," ++ labelOf m := by
  unfold updateRecord
  by_cases h2 : 2 ≤ r.feedback_count + 1 <;> simp [h2]

theorem update_split (r : URLFeedback) (m : Bool) (conf : ℚ) :
    pySplitChar ',' (updateRecord r m conf).last_feedback_type.data =
      pySplitChar ',' r.last_feedback_type.data ++ [(labelOf m).data] := by
  rw [update_last]
  have : (r.last_feedback_type ++ "," ++ labelOf m).data =
      r.last_feedback_type.data ++ ',' :: (labelOf m).data := by
    simp [String.data_append]
  rw [this, pySplitChar_append, split_label]

theorem update_count (r : URLFeedback) (m : Bool) (conf : ℚ) :
    (updateRecord r m conf).feedback_count = r.feedback_count + 1 := by
  unfold updateRecord
  by_cases h2 : 2 ≤ r.feedback_count + 1 <;> simp [h2]

theorem update_consensus_type (r : URLFeedback) (m : Bool) (conf : ℚ)
    (hfc : 1 ≤ r.feedback_count) :
    (updateRecord r m conf).consensus_reached =
      (decide (((r.feedback_count + 1 : Nat) : ℚ) * (3 / 5) ≤
        ((((pySplitChar ',' (r.last_feedback_type ++ "," ++ labelOf m).data).filter
          (· = "malicious".data)).length : Nat) : ℚ)) ||
       decide (((r.feedback_count + 1 : Nat) : ℚ) * (3 / 5) ≤
        (((pySplitChar ',' (r.last_feedback_type ++ "," ++ labelOf m).data).length -
          ((pySplitChar ',' (r.last_feedback_type ++ "," ++ labelOf m).data).filter
            (· = "malicious".data)).length : Nat) : ℚ))) ∧
    (updateRecord r m conf).type =
      (if (pySplitChar ',' (r.last_feedback_type ++ "," ++ labelOf m).data).length -
          ((pySplitChar ',' (r.last_feedback_type ++ "," ++ labelOf m).data).filter
            (· = "malicious".data)).length ≤
          ((pySplitChar ',' (r.last_feedback_type ++ "," ++ labelOf m).data).filter
            (· = "malicious".data)).length
       then "malicious" else "benign") := by
  have h2 : 2 ≤ r.feedback_count + 1 := by omega
  unfold updateRecord
  rw [if_pos h2]
  exact ⟨rfl, rfl⟩

/-! # C1: consensus recomputation from the full updated history -/

/-- C1: on every update of an existing record (any record with at least
one prior feedback and a well-formed history), `process_feedback` sets
`consensusReached` to whether either label reaches the 60% majority of
the full updated history (`5 * count ≥ 3 * feedbackCount`), and sets
`type` to the label with the weakly greater count, ties to malicious;
in particular when neither label reaches the majority, `consensusReached`
comes out false. -/
theorem C1_consensus_recompute (r : URLFeedback) (m : Bool) (conf : ℚ)
    (hfc : 1 ≤ r.feedback_count) (hlab : labelsOk r.last_feedback_type) :
    (updateRecord r m conf).feedback_count = r.feedback_count + 1 ∧
    (updateRecord r m conf).consensus_reached =
      (decide (3 * (updateRecord r m conf).feedback_count ≤
          5 * (historyCounts (updateRecord r m conf)).1) ||
       decide (3 * (updateRecord r m conf).feedback_count ≤
          5 * (historyCounts (updateRecord r m conf)).2)) ∧
    (updateRecord r m conf).type =
      (if (historyCounts (updateRecord r m conf)).2 ≤
          (historyCounts (updateRecord r m conf)).1
       then "malicious" else "benign") ∧
    (¬ (3 * (updateRecord r m conf).feedback_count ≤
          5 * (historyCounts (updateRecord r m conf)).1) →
     ¬ (3 * (updateRecord r m conf).feedback_count ≤
          5 * (historyCounts (updateRecord r m conf)).2) →
     (updateRecord r m conf).consensus_reached = false) := by
  have hsplit := update_split r m conf
  have hcnt := update_count r m conf
  have hlab' : ∀ t ∈ pySplitChar ',' (updateRecord r m conf).last_feedback_type.data,
      t = "malicious".data ∨ t = "benign".data := by
    rw [hsplit]
    intro t ht
    rcases List.mem_append.mp ht with h | h
    · exact hlab t h
    · rcases List.mem_singleton.mp h with rfl
      cases m
      · right; rfl
      · left; rfl
  have hlen := two_label_length "malicious".data "benign".data (by decide) _ hlab'
  have hlast : pySplitChar ',' (updateRecord r m conf).last_feedback_type.data =
      pySplitChar ',' (r.last_feedback_type ++ "," ++ labelOf m).data := by
    rw [update_last]
  have hmc : (historyCounts (updateRecord r m conf)).1 =
      ((pySplitChar ',' (r.last_feedback_type ++ "," ++ labelOf m).data).filter
        (· = "malicious".data)).length := by
    unfold historyCounts; rw [hlast]
  have hbc : (historyCounts (updateRecord r m conf)).2 =
      ((pySplitChar ',' (r.last_feedback_type ++ "," ++ labelOf m).data).filter
        (· = "benign".data)).length := by
    unfold historyCounts; rw [hlast]
  have hlen' : ((pySplitChar ',' (r.last_feedback_type ++ "," ++ labelOf m).data).filter
        (· = "malicious".data)).length +
      ((pySplitChar ',' (r.last_feedback_type ++ "," ++ labelOf m).data).filter
        (· = "benign".data)).length =
      (pySplitChar ',' (r.last_feedback_type ++ "," ++ labelOf m).data).length := by
    rw [← hlast]; exact hlen
  obtain ⟨hcons, htype⟩ := update_consensus_type r m conf hfc
  have hsub : (pySplitChar ',' (r.last_feedback_type ++ "," ++ labelOf m).data).length -
      ((pySplitChar ',' (r.last_feedback_type ++ "," ++ labelOf m).data).filter
        (· = "malicious".data)).length =
      ((pySplitChar ',' (r.last_feedback_type ++ "," ++ labelOf m).data).filter
        (· = "benign".data)).length := by omega
  refine ⟨hcnt, ?_, ?_, ?_⟩
  · rw [hcons, hmc, hbc, hcnt, hsub]
    congr 1 <;> rw [decide_eq_decide] <;> exact sixty_iff _ _
  · rw [htype, hmc, hbc, hsub]
  · intro hm hb
    rw [hmc] at hm
    rw [hbc] at hb
    rw [hcnt] at hm hb
    have h1 : ¬ (((r.feedback_count + 1 : Nat) : ℚ) * (3 / 5) ≤
        ((((pySplitChar ',' (r.last_feedback_type ++ "," ++ labelOf m).data).filter
          (· = "malicious".data)).length : Nat) : ℚ)) := fun h => hm ((sixty_iff _ _).mp h)
    have h2 : ¬ (((r.feedback_count + 1 : Nat) : ℚ) * (3 / 5) ≤
        ((((pySplitChar ',' (r.last_feedback_type ++ "," ++ labelOf m).data).filter
          (· = "benign".data)).length : Nat) : ℚ)) := fun h => hb ((sixty_iff _ _).mp h)
    rw [hcons, hsub, decide_eq_false h1, decide_eq_false h2]
    rfl


/-- C1 witness: a second, disagreeing feedback on a one-feedback record
leaves the counts tied at one each, reaching no 60% majority, so
consensus stays false and the tie resolves to malicious. -/
theorem C1_consensus_recompute_witness :
    (updateRecord sampleFresh false (1/4)).feedback_count = sampleFresh.feedback_count + 1 ∧
    (updateRecord sampleFresh false (1/4)).consensus_reached =
      (decide (3 * (updateRecord sampleFresh false (1/4)).feedback_count ≤
          5 * (historyCounts (updateRecord sampleFresh false (1/4))).1) ||
       decide (3 * (updateRecord sampleFresh false (1/4)).feedback_count ≤
          5 * (historyCounts (updateRecord sampleFresh false (1/4))).2)) ∧
    (updateRecord sampleFresh false (1/4)).type =
      (if (historyCounts (updateRecord sampleFresh false (1/4))).2 ≤
          (historyCounts (updateRecord sampleFresh false (1/4))).1
       then "malicious" else "benign") ∧
    (¬ (3 * (updateRecord sampleFresh false (1/4)).feedback_count ≤
          5 * (historyCounts (updateRecord sampleFresh false (1/4))).1) →
     ¬ (3 * (updateRecord sampleFresh false (1/4)).feedback_count ≤
          5 * (historyCounts (updateRecord sampleFresh false (1/4))).2) →
     (updateRecord sampleFresh false (1/4)).consensus_reached = false) :=
  C1_consensus_recompute sampleFresh false (1/4) (by decide) (by decide)

/-! # C8: feedbackCount equals the history length -/

/-- C8: creation yields count 1 with a one-element history; every update
appends exactly one label and increments the count by exactly one, so the
invariant `feedbackCount = length(history)` is preserved. -/
theorem C8_count_matches_history (url : String) (m : Bool) (conf : ℚ)
    (r : URLFeedback) (m' : Bool) (conf' : ℚ)
    (hinv : r.feedback_count = (pySplitChar ',' r.last_feedback_type.data).length) :
    (createRecord url m conf).feedback_count = 1 ∧
    pySplitChar ',' (createRecord url m conf).last_feedback_type.data = [(labelOf m).data] ∧
    (updateRecord r m' conf').feedback_count = r.feedback_count + 1 ∧
    pySplitChar ',' (updateRecord r m' conf').last_feedback_type.data =
      pySplitChar ',' r.last_feedback_type.data ++ [(labelOf m').data] ∧
    (updateRecord r m' conf').feedback_count =
      (pySplitChar ',' (updateRecord r m' conf').last_feedback_type.data).length := by
  refine ⟨rfl, split_label m, update_count r m' conf', update_split r m' conf', ?_⟩
  rw [update_count, update_split, List.length_append, ← hinv]
  rfl

/-- C8 witness: the invariant instantiated on a fresh record plus one
further feedback. -/
theorem C8_count_matches_history_witness :
    (createRecord "http://x" true (1/2)).feedback_count = 1 ∧
    pySplitChar ',' (createRecord "http://x" true (1/2)).last_feedback_type.data =
      [(labelOf true).data] ∧
    (updateRecord sampleFresh false (1/3)).feedback_count = sampleFresh.feedback_count + 1 ∧
    pySplitChar ',' (updateRecord sampleFresh false (1/3)).last_feedback_type.data =
      pySplitChar ',' sampleFresh.last_feedback_type.data ++ [(labelOf false).data] ∧
    (updateRecord sampleFresh false (1/3)).feedback_count =
      (pySplitChar ',' (updateRecord sampleFresh false (1/3)).last_feedback_type.data).length :=
  C8_count_matches_history "http://x" true (1/2) sampleFresh false (1/3) (by decide)

/-! # C9: the reported confidence does not interfere with the verdict -/

theorem updateRecord_confid_fields (r : URLFeedback) (m : Bool) (c₁ c₂ : ℚ) :
    (updateRecord r m c₁).type = (updateRecord r m c₂).type ∧
    (updateRecord r m c₁).consensus_reached = (updateRecord r m c₂).consensus_reached ∧
    (updateRecord r m c₁).feedback_count = (updateRecord r m c₂).feedback_count ∧
    (updateRecord r m c₁).conflicting_feedbacks = (updateRecord r m c₂).conflicting_feedbacks ∧
    (updateRecord r m c₁).last_feedback_type = (updateRecord r m c₂).last_feedback_type ∧
    (updateRecord r m c₁).used_in_training = (updateRecord r m c₂).used_in_training := by
  simp only [updateRecord]
  by_cases h2 : 2 ≤ r.feedback_count + 1
  · rw [if_pos h2, if_pos h2]
    exact ⟨rfl, rfl, rfl, rfl, rfl, rfl⟩
  · rw [if_neg h2, if_neg h2]
    exact ⟨rfl, rfl, rfl, rfl, rfl, rfl⟩

theorem elig_update_confid (r : URLFeedback) (m : Bool) (c₁ c₂ : ℚ) :
    eligibleForTraining (updateRecord r m c₁) = eligibleForTraining (updateRecord r m c₂) := by
  obtain ⟨_, hcons, hfc, _, _, hused⟩ := updateRecord_confid_fields r m c₁ c₂
  unfold eligibleForTraining
  rw [hcons, hfc, hused]

theorem unused_replaceFirst (p : URLFeedback → Bool) (f g : URLFeedback → URLFeedback)
    (hfg : ∀ r, eligibleForTraining (f r) = eligibleForTraining (g r)) :
    ∀ db, unused_samples (replaceFirst p f db) = unused_samples (replaceFirst p g db) := by
  intro db
  induction db with
  | nil => rfl
  | cons r rs ih =>
    unfold replaceFirst unused_samples
    by_cases hp : p r
    · rw [if_pos hp, if_pos hp]
      simp only [List.filter_cons, hfg r]
      cases h : eligibleForTraining (g r) <;> simp [h]
    · rw [if_neg hp, if_neg hp]
      unfold unused_samples at ih
      simp only [List.filter_cons]
      cases h : eligibleForTraining r <;> simp [h, ih]

theorem elig_createRecord (url : String) (m : Bool) (c : ℚ) :
    eligibleForTraining (createRecord url m c) = false := rfl

theorem process_response_confid (url : String) (m : Bool) (c₁ c₂ : ℚ)
    (db : List URLFeedback) :
    (process_feedback url m c₁ db).2 = (process_feedback url m c₂ db).2 := by
  unfold process_feedback
  cases h : db.find? (fun r => r.normalized_url == _normalize_url url) with
  | none =>
    simp only [h]
    have : unused_samples (db ++ [createRecord url m c₁]) =
        unused_samples (db ++ [createRecord url m c₂]) := by
      unfold unused_samples
      rw [List.filter_append, List.filter_append]
      simp [List.filter_cons, elig_createRecord]
    rw [this]
  | some r0 =>
    simp only [h]
    have := unused_replaceFirst (fun r => r.normalized_url == _normalize_url url)
      (fun r => updateRecord r m c₁) (fun r => updateRecord r m c₂)
      (fun r => elig_update_confid r m c₁ c₂) db
    rw [this]

/-- C9: two feedback events that differ only in the reported confidence
produce the same type, consensus flag, feedback count, conflict count,
history and training flag, both on update and on creation, and the same
feedback-processing response (status, unused count, retraining flag);
the confidence influences only the stored confidence field. -/
theorem C9_confidence_noninterference (r : URLFeedback) (m : Bool) (c₁ c₂ : ℚ)
    (url : String) (db : List URLFeedback) :
    (updateRecord r m c₁).type = (updateRecord r m c₂).type ∧
    (updateRecord r m c₁).consensus_reached = (updateRecord r m c₂).consensus_reached ∧
    (updateRecord r m c₁).feedback_count = (updateRecord r m c₂).feedback_count ∧
    (updateRecord r m c₁).conflicting_feedbacks = (updateRecord r m c₂).conflicting_feedbacks ∧
    (updateRecord r m c₁).last_feedback_type = (updateRecord r m c₂).last_feedback_type ∧
    (updateRecord r m c₁).used_in_training = (updateRecord r m c₂).used_in_training ∧
    (createRecord url m c₁).type = (createRecord url m c₂).type ∧
    (createRecord url m c₁).consensus_reached = (createRecord url m c₂).consensus_reached ∧
    (createRecord url m c₁).feedback_count = (createRecord url m c₂).feedback_count ∧
    (createRecord url m c₁).conflicting_feedbacks = (createRecord url m c₂).conflicting_feedbacks ∧
    (createRecord url m c₁).last_feedback_type = (createRecord url m c₂).last_feedback_type ∧
    (createRecord url m c₁).used_in_training = (createRecord url m c₂).used_in_training ∧
    (process_feedback url m c₁ db).2 = (process_feedback url m c₂ db).2 := by
  obtain ⟨h1, h2, h3, h4, h5, h6⟩ := updateRecord_confid_fields r m c₁ c₂
  exact ⟨h1, h2, h3, h4, h5, h6, rfl, rfl, rfl, rfl, rfl, rfl,
    process_response_confid url m c₁ c₂ db⟩

/-! # C2: the retraining trigger -/

theorem process_needs (url : String) (m : Bool) (conf : ℚ) (db : List URLFeedback) :
    (process_feedback url m conf db).2.needs_retraining =
      decide (retrain_threshold ≤ unused_samples (process_feedback url m conf db).1) := by
  unfold process_feedback
  cases h : db.find? (fun r => r.normalized_url == _normalize_url url) <;> rfl

/-- C2: both the feedback-processing response and the training-stats query
report `needsRetraining` exactly when the count of unused eligible
records (`usedInTraining = false` and consensus or at least two
feedbacks) reaches the fixed threshold 1000; at 999 it is false. -/
theorem C2_needs_retraining_threshold (url : String) (m : Bool) (conf : ℚ)
    (db : List URLFeedback) :
    retrain_threshold = 1000 ∧
    (process_feedback url m conf db).2.needs_retraining =
      decide (1000 ≤ unused_samples (process_feedback url m conf db).1) ∧
    (get_training_stats db).needs_retraining = decide (1000 ≤ unused_samples db) ∧
    (unused_samples (process_feedback url m conf db).1 = 1000 →
      (process_feedback url m conf db).2.needs_retraining = true) ∧
    (unused_samples (process_feedback url m conf db).1 = 999 →
      (process_feedback url m conf db).2.needs_retraining = false) ∧
    (unused_samples db = 999 → (get_training_stats db).needs_retraining = false) := by
  have hp := process_needs url m conf db
  refine ⟨rfl, hp, rfl, ?_, ?_, ?_⟩
  · intro h; rw [hp, h]; rfl
  · intro h; rw [hp, h]; rfl
  · intro h
    unfold get_training_stats
    rw [h]
    rfl

theorem filter_replicate_of_pos {p : URLFeedback → Bool} {a : URLFeedback}
    (hp : p a = true) : ∀ n, List.filter p (List.replicate n a) = List.replicate n a := by
  intro n
  induction n with
  | zero => rfl
  | succ k ih => simp [List.replicate_succ, List.filter_cons, hp, ih]

theorem find?_replicate_of_neg {p : URLFeedback → Bool} {a : URLFeedback}
    (hp : p a = false) : ∀ n, List.find? p (List.replicate n a) = none := by
  intro n
  induction n with
  | zero => rfl
  | succ k ih => simp [List.replicate_succ, List.find?, hp, ih]

theorem unused_exC2Db_after : unused_samples
    (process_feedback "http://fresh.example/x" true (1/2) exC2Db).1 = 999 := by
  have hfind : exC2Db.find? (fun r =>
      r.normalized_url == _normalize_url "http://fresh.example/x") = none :=
    find?_replicate_of_neg (by decide) 999
  simp only [process_feedback, hfind]
  unfold unused_samples exC2Db
  rw [List.filter_append, filter_replicate_of_pos (by decide)]
  simp only [List.filter_cons, elig_createRecord, Bool.false_eq_true, if_false,
    List.filter_nil, List.append_nil, List.length_replicate]

/-- C2 witness: a store holding 999 eligible records plus a fresh
(ineligible) creation still counts 999 unused eligible records, and the
response reports `needsRetraining = false`. -/
theorem C2_needs_retraining_threshold_witness :
    unused_samples (process_feedback "http://fresh.example/x" true (1/2) exC2Db).1 = 999 ∧
    (process_feedback "http://fresh.example/x" true (1/2) exC2Db).2.needs_retraining = false :=
  ⟨unused_exC2Db_after,
   (C2_needs_retraining_threshold "http://fresh.example/x" true (1/2) exC2Db).2.2.2.2.1
     unused_exC2Db_after⟩

/-! # C7: the suspicious-word feature never matches capitalised words -/

/-- C7: the code lowercases only the URL, not the list word, so a URL
containing `paypal` in any casing is not flagged (the `PayPal` entry can
never match), while the spec's case-insensitive match flags it. -/
theorem C7_paypal_mismatch :
    _suspicious_words "http://paypal.com" = 0 ∧ specSusUrl "http://paypal.com" = 1 := by
  constructor <;> decide

/-! # C10: the embedded-domain count -/

theorem pyCountGo_of_no_occur (p : Char) (ps : List Char) :
    ∀ (fuel : Nat) (l : List Char), hasSubstr (p :: ps) l = false →
      pyCountGo p ps fuel l = 0 := by
  intro fuel
  induction fuel with
  | zero => intro l _; cases l <;> rfl
  | succ k ih =>
    intro l hno
    cases l with
    | nil => rfl
    | cons c cs =>
      unfold hasSubstr at hno
      rw [Bool.or_eq_false_iff] at hno
      unfold pyCountGo
      rw [if_neg (by simp [hno.1])]
      exact ih cs hno.2

/-- C10: `count_embed_domain` is the number of non-overlapping `//`
occurrences in the URL minus one; in particular a URL with no `//` at all
gets the value `-1` rather than a non-negative count. -/
theorem C10_count_embed_domain (url : String) :
    _no_of_embed url = (pyCount ['/', '/'] url.data : Int) - 1 ∧
    (hasSubstr ['/', '/'] url.data = false → _no_of_embed url = -1) := by
  refine ⟨rfl, ?_⟩
  intro hno
  have h0 : pyCount ['/', '/'] url.data = 0 :=
    pyCountGo_of_no_occur '/' ['/'] url.data.length url.data hno
  unfold _no_of_embed
  rw [h0]
  decide

/-- C10 witness: `example.com` has no `//` and gets `-1`. -/
theorem C10_count_embed_domain_witness :
    hasSubstr ['/', '/'] "example.com".data = false ∧ _no_of_embed "example.com" = -1 :=
  ⟨by decide, (C10_count_embed_domain "example.com").2 (by decide)⟩

/-! # C4: model selection -/

/-- C4 counterexample: the training loop selects by cross-validation F1,
not by the held-out F1 the claim names; on `exC4Cands` the two rules pick
different candidates. -/
theorem C4_counterexample :
    select_best exC4Cands = some candA ∧
    specSelectBestByTestF1 exC4Cands = some candB ∧
    candA ≠ candB := by
  refine ⟨?_, ?_, ?_⟩ <;> decide


theorem find_pred_congr {α : Type} (p q : α → Bool) :
    ∀ (l : List α), (∀ x ∈ l, p x = q x) → l.find? p = l.find? q := by
  intro l
  induction l with
  | nil => intro _; rfl
  | cons a t ih =>
    intro h
    have ha := h a (List.mem_cons_self a t)
    have ht : ∀ x ∈ t, p x = q x := fun x hx => h x (List.mem_cons_of_mem a hx)
    rw [List.find?_cons, List.find?_cons, ha, ih ht]

theorem exists_cv_max : ∀ (l : List CandidateOutcome), l ≠ [] →
    ∃ x ∈ l, ∀ y ∈ l, y.cv_f1 ≤ x.cv_f1 := by
  intro l
  induction l with
  | nil => intro h; exact absurd rfl h
  | cons a t ih =>
    intro _
    cases t with
    | nil => exact ⟨a, List.mem_cons_self a [], by simp⟩
    | cons b u =>
      obtain ⟨x, hx, hmax⟩ := ih (by simp)
      by_cases hax : a.cv_f1 ≤ x.cv_f1
      · refine ⟨x, List.mem_cons_of_mem a hx, ?_⟩
        intro y hy
        rcases List.mem_cons.mp hy with rfl | hy'
        · exact hax
        · exact hmax y hy'
      · refine ⟨a, List.mem_cons_self a _, ?_⟩
        intro y hy
        rcases List.mem_cons.mp hy with rfl | hy'
        · exact le_refl _
        · exact le_trans (hmax y hy') (le_of_not_le hax)

theorem find?_cons_false {α : Type} (p : α → Bool) (a : α) (l : List α)
    (h : p a = false) : (a :: l).find? p = l.find? p := by
  rw [List.find?_cons, h]

theorem foldSel_char : ∀ (l : List (Option CandidateOutcome))
    (b : Option CandidateOutcome) (s : ℚ),
    (l.foldl selectStep (b, s)).1 =
      ((l.filterMap id).find? (fun c => decide (s < c.cv_f1) &&
        (l.filterMap id).all (fun d => decide (d.cv_f1 ≤ c.cv_f1)))).elim b some := by
  intro l
  induction l with
  | nil => intro b s; rfl
  | cons o t ih =>
    intro b s
    cases o with
    | none =>
      rw [List.foldl_cons]
      show (t.foldl selectStep (b, s)).1 = _
      exact ih b s
    | some c =>
      rw [List.foldl_cons]
      have hfm : ((some c :: t : List (Option CandidateOutcome)).filterMap id) =
          c :: t.filterMap id := rfl
      rw [hfm]
      by_cases hlt : s < c.cv_f1
      · show (t.foldl selectStep (if s < c.cv_f1 then (some c, c.cv_f1) else (b, s))).1 = _
        rw [if_pos hlt, ih (some c) c.cv_f1]
        by_cases hmax : (t.filterMap id).all (fun d => decide (d.cv_f1 ≤ c.cv_f1)) = true
        · have hnone : (t.filterMap id).find?
              (fun x => decide (c.cv_f1 < x.cv_f1) &&
                (t.filterMap id).all (fun d => decide (d.cv_f1 ≤ x.cv_f1))) = none := by
            rw [List.find?_eq_none]
            intro x hx
            have hxle : x.cv_f1 ≤ c.cv_f1 := by
              have := List.all_eq_true.mp hmax x hx
              simpa using this
            simp [not_lt_of_le hxle]
          have hsome : (c :: t.filterMap id).find?
              (fun x => decide (s < x.cv_f1) &&
                (c :: t.filterMap id).all (fun d => decide (d.cv_f1 ≤ x.cv_f1))) = some c := by
            apply List.find?_cons_of_pos
            simp only [Bool.and_eq_true, decide_eq_true_eq, List.all_cons]
            exact ⟨hlt, by simp [hmax]⟩
          rw [hnone, hsome]
          rfl
        · obtain ⟨d, hd, hdgt⟩ : ∃ d ∈ t.filterMap id, c.cv_f1 < d.cv_f1 := by
            have hmax' : ¬ (∀ x ∈ t.filterMap id, x.cv_f1 ≤ c.cv_f1) := by
              intro hall
              exact hmax (List.all_eq_true.mpr (fun x hx => by simpa using hall x hx))
            push_neg at hmax'
            obtain ⟨d, hd, hdn⟩ := hmax'
            exact ⟨d, hd, hdn⟩
          have hPc : (decide (s < c.cv_f1) &&
              (c :: t.filterMap id).all (fun d => decide (d.cv_f1 ≤ c.cv_f1))) = false := by
            rw [Bool.and_eq_false_iff]
            right
            rw [List.all_cons, Bool.and_eq_false_iff]
            right
            rw [List.all_eq_false]
            exact ⟨d, hd, by simp [not_le_of_lt hdgt]⟩
          have hcong : ∀ x ∈ t.filterMap id,
              (decide (c.cv_f1 < x.cv_f1) &&
                (t.filterMap id).all (fun e => decide (e.cv_f1 ≤ x.cv_f1))) =
              (decide (s < x.cv_f1) &&
                (c :: t.filterMap id).all (fun e => decide (e.cv_f1 ≤ x.cv_f1))) := by
            intro x hx
            rw [List.all_cons]
            cases hall : (t.filterMap id).all (fun e => decide (e.cv_f1 ≤ x.cv_f1)) with
            | false => simp
            | true =>
              have hdx : d.cv_f1 ≤ x.cv_f1 := by
                have := List.all_eq_true.mp hall d hd
                simpa using this
              have hcx : c.cv_f1 < x.cv_f1 := lt_of_lt_of_le hdgt hdx
              have hsx : s < x.cv_f1 := lt_trans hlt hcx
              simp [hcx, hsx, le_of_lt hcx]
          obtain ⟨w, hw⟩ : ∃ w, (t.filterMap id).find?
              (fun x => decide (c.cv_f1 < x.cv_f1) &&
                (t.filterMap id).all (fun e => decide (e.cv_f1 ≤ x.cv_f1))) = some w := by
            have hTne : t.filterMap id ≠ [] := by
              intro h
              rw [h] at hd
              exact absurd hd (List.not_mem_nil d)
            obtain ⟨x, hx, hxmax⟩ := exists_cv_max (t.filterMap id) hTne
            have hpx : (decide (c.cv_f1 < x.cv_f1) &&
                (t.filterMap id).all (fun e => decide (e.cv_f1 ≤ x.cv_f1))) = true := by
              have hcx : c.cv_f1 < x.cv_f1 := lt_of_lt_of_le hdgt (hxmax d hd)
              simp only [Bool.and_eq_true, decide_eq_true_eq]
              exact ⟨hcx, List.all_eq_true.mpr (fun e he => by simpa using hxmax e he)⟩
            cases hfw : (t.filterMap id).find?
                (fun x => decide (c.cv_f1 < x.cv_f1) &&
                  (t.filterMap id).all (fun e => decide (e.cv_f1 ≤ x.cv_f1))) with
            | none =>
              rw [List.find?_eq_none] at hfw
              exact absurd hpx (by simpa using hfw x hx)
            | some w => exact ⟨w, rfl⟩
          rw [find?_cons_false (fun x => decide (s < x.cv_f1) &&
            (c :: t.filterMap id).all (fun e => decide (e.cv_f1 ≤ x.cv_f1))) c
            (t.filterMap id) hPc]
          rw [← find_pred_congr _ _ (t.filterMap id) hcong, hw]
          rfl
      · show (t.foldl selectStep (if s < c.cv_f1 then (some c, c.cv_f1) else (b, s))).1 = _
        rw [if_neg hlt, ih b s]
        have hPc : (decide (s < c.cv_f1) &&
            (c :: t.filterMap id).all (fun d => decide (d.cv_f1 ≤ c.cv_f1))) = false := by
          rw [Bool.and_eq_false_iff]
          left
          simp [hlt]
        have hcong : ∀ x ∈ t.filterMap id,
            (decide (s < x.cv_f1) &&
              (t.filterMap id).all (fun e => decide (e.cv_f1 ≤ x.cv_f1))) =
            (decide (s < x.cv_f1) &&
              (c :: t.filterMap id).all (fun e => decide (e.cv_f1 ≤ x.cv_f1))) := by
          intro x hx
          rw [List.all_cons]
          cases hsx : decide (s < x.cv_f1) with
          | false => simp
          | true =>
            have hsx' : s < x.cv_f1 := of_decide_eq_true hsx
            have hcx : c.cv_f1 ≤ x.cv_f1 := le_trans (le_of_not_lt hlt) (le_of_lt hsx')
            simp [hcx]
        rw [find?_cons_false (fun x => decide (s < x.cv_f1) &&
          (c :: t.filterMap id).all (fun e => decide (e.cv_f1 ≤ x.cv_f1))) c
          (t.filterMap id) hPc]
        rw [← find_pred_congr _ _ (t.filterMap id) hcong]

/-- C4 amended: the training loop selects the first successfully trained
candidate attaining the maximal cross-validation weighted F1 (strictly
positive, since the best score starts at 0), not the held-out test F1;
ties still go to the first candidate evaluated. -/
theorem C4_selects_by_cv_f1 (cands : List (Option CandidateOutcome)) :
    select_best cands = codeSelectRule cands ∧
    initiate_model_training cands = ((codeSelectRule cands).map Except.ok).getD
      (Except.error "No models were successfully trained") := by
  have h : select_best cands = codeSelectRule cands := by
    unfold select_best codeSelectRule
    rw [foldSel_char cands none 0]
    cases ((cands.filterMap id).find? (fun c => decide (0 < c.cv_f1) &&
      (cands.filterMap id).all (fun d => decide (d.cv_f1 ≤ c.cv_f1)))) <;> rfl
  refine ⟨h, ?_⟩
  unfold initiate_model_training
  rw [h]
  cases codeSelectRule cands <;> rfl

/-! # C3: what retraining marks and by how much the count drops -/

theorem elig_marked (r : URLFeedback) :
    eligibleForTraining { r with used_in_training := true } = false := rfl

theorem unused_markUsed : ∀ (db : List URLFeedback), unused_samples (markUsed db) = 0 := by
  intro db
  induction db with
  | nil => rfl
  | cons r rs ih =>
    unfold markUsed unused_samples at ih ⊢
    simp only [List.map_cons, List.filter_cons]
    by_cases h : eligibleForTraining r = true
    · rw [if_pos h, elig_marked]
      simpa using ih
    · rw [if_neg h]
      have h' : eligibleForTraining r = false := by
        cases hh : eligibleForTraining r
        · rfl
        · exact absurd hh h
      rw [h']
      simpa using ih

/-- C3 amended: when retraining runs with at least the threshold of
eligible records and at least one successful extraction, per-URL failures
are skipped (counted, not fatal), but the marking loop sets
`usedInTraining := true` on every fetched eligible record — failed ones
included — so the unused-eligible count drops to 0, a decrease equal to
the total number of eligible records, not to the number successfully
processed. -/
theorem C3_retrain_marks_all_eligible (extract : String → Option Unit)
    (db : List URLFeedback)
    (hthr : retrain_threshold ≤ (db.filter eligibleForTraining).length)
    (hsome : 0 < ((db.filter eligibleForTraining).filter
      (fun r => (extract r.url).isSome)).length) :
    retrain_model extract db =
      Except.ok (markUsed db,
        { message := "Model retrained successfully"
          new_samples_used := ((db.filter eligibleForTraining).filter
            (fun r => (extract r.url).isSome)).length
          failed_samples := ((db.filter eligibleForTraining).filter
            (fun r => (extract r.url).isNone)).length }) ∧
    unused_samples (markUsed db) = 0 ∧
    unused_samples db - unused_samples (markUsed db) =
      (db.filter eligibleForTraining).length := by
  refine ⟨?_, unused_markUsed db, ?_⟩
  · unfold retrain_model
    rw [if_neg (by omega), if_neg (by omega)]
  · rw [unused_markUsed db]
    unfold unused_samples
    omega

theorem elig_exC3Db : exC3Db.filter eligibleForTraining = exC3Db := by
  unfold exC3Db
  rw [List.filter_cons, if_pos (by decide), filter_replicate_of_pos (by decide)]

theorem processed_exC3 :
    ((exC3Db.filter eligibleForTraining).filter
      (fun r => (exC3Extract r.url).isSome)).length = 999 := by
  rw [elig_exC3Db]
  unfold exC3Db
  rw [List.filter_cons, if_neg (by decide), filter_replicate_of_pos (by decide)]
  rw [List.length_replicate]

theorem failed_exC3 :
    ((exC3Db.filter eligibleForTraining).filter
      (fun r => (exC3Extract r.url).isNone)).length = 1 := by
  rw [elig_exC3Db]
  unfold exC3Db
  rw [List.filter_cons, if_pos (by decide)]
  have : List.filter (fun r => (exC3Extract r.url).isNone)
      (List.replicate 999 sampleEligible) = [] := by
    induction (999 : Nat) with
    | zero => rfl
    | succ k ih => rw [List.replicate_succ, List.filter_cons, if_neg (by decide), ih]
  rw [this]
  rfl

theorem len_elig_exC3Db : (exC3Db.filter eligibleForTraining).length = 1000 := by
  rw [elig_exC3Db]
  unfold exC3Db
  rw [List.length_cons, List.length_replicate]

theorem unused_exC3Db : unused_samples exC3Db = 1000 := by
  unfold unused_samples
  rw [elig_exC3Db]
  unfold exC3Db
  rw [List.length_cons, List.length_replicate]

/-- C3 counterexample: on a store of 1000 eligible records of which one
fails extraction, the retrain report counts 999 successfully processed
URLs, yet the unused-eligible count drops by 1000 — the claim's
"decreased by exactly the number of successfully processed records" is
false. -/
theorem C3_counterexample :
    retrain_model exC3Extract exC3Db =
      Except.ok (markUsed exC3Db,
        { message := "Model retrained successfully"
          new_samples_used := 999, failed_samples := 1 }) ∧
    unused_samples exC3Db - unused_samples (markUsed exC3Db) = 1000 ∧
    (1000 : Nat) ≠ 999 := by
  refine ⟨?_, ?_, by decide⟩
  · unfold retrain_model
    rw [if_neg (by rw [len_elig_exC3Db]; decide), if_neg (by rw [processed_exC3]; omega)]
    rw [processed_exC3, failed_exC3]
  · rw [unused_exC3Db, unused_markUsed]

/-- C3 witness: the amended statement instantiated on the same store. -/
theorem C3_retrain_marks_all_eligible_witness :
    retrain_threshold ≤ (exC3Db.filter eligibleForTraining).length ∧
    (retrain_model exC3Extract exC3Db =
      Except.ok (markUsed exC3Db,
        { message := "Model retrained successfully"
          new_samples_used := ((exC3Db.filter eligibleForTraining).filter
            (fun r => (exC3Extract r.url).isSome)).length
          failed_samples := ((exC3Db.filter eligibleForTraining).filter
            (fun r => (exC3Extract r.url).isNone)).length }) ∧
      unused_samples (markUsed exC3Db) = 0 ∧
      unused_samples exC3Db - unused_samples (markUsed exC3Db) =
        (exC3Db.filter eligibleForTraining).length) :=
  ⟨by rw [len_elig_exC3Db]; decide,
   C3_retrain_marks_all_eligible exC3Extract exC3Db
     (by rw [len_elig_exC3Db]; decide)
     (by rw [processed_exC3]; omega)⟩


/-! # Character-level lemmas for the normaliser -/

theorem toNat_ofNat_valid (n : Nat) (h : n.isValidChar) : (Char.ofNat n).toNat = n := by
  rw [Char.ofNat, dif_pos h]
  simp [Char.ofNatAux, Char.toNat, UInt32.toNat, BitVec.toNat_ofNatLt]

theorem pyLowerChar_toNat (c : Char) :
    (pyLowerChar c).toNat = if 'A' ≤ c ∧ c ≤ 'Z' then c.toNat + 32 else c.toNat := by
  unfold pyLowerChar
  split
  · rename_i h
    have h1 : 65 ≤ c.toNat := by
      have := h.1
      rw [Char.le_def] at this
      exact this
    have h2 : c.toNat ≤ 90 := by
      have := h.2
      rw [Char.le_def] at this
      exact this
    exact toNat_ofNat_valid _ (Or.inl (by omega))
  · rfl

theorem char_eq_iff_toNat (a b : Char) : a = b ↔ a.toNat = b.toNat := by
  constructor
  · intro h; rw [h]
  · intro h
    apply Char.ext
    exact UInt32.ext h

theorem upper_bounds_of_upper (c : Char) (h : 'A' ≤ c ∧ c ≤ 'Z') :
    65 ≤ c.toNat ∧ c.toNat ≤ 90 := by
  constructor
  · have := h.1; rw [Char.le_def] at this; exact this
  · have := h.2; rw [Char.le_def] at this; exact this

theorem pyLowerChar_fixed_iff (c d : Char)
    (hdu : ¬('A' ≤ d ∧ d ≤ 'Z')) (hdl : d.toNat < 97 ∨ 122 < d.toNat) :
    pyLowerChar c = d ↔ c = d := by
  constructor
  · intro h
    by_cases hu : 'A' ≤ c ∧ c ≤ 'Z'
    · exfalso
      obtain ⟨h1, h2⟩ := upper_bounds_of_upper c hu
      have ht : (pyLowerChar c).toNat = c.toNat + 32 := by
        rw [pyLowerChar_toNat, if_pos hu]
      rw [h] at ht
      omega
    · unfold pyLowerChar at h
      rw [if_neg hu] at h
      exact h
  · intro h
    subst h
    unfold pyLowerChar
    rw [if_neg hdu]

theorem mem_pyLower_iff (d : Char)
    (hdu : ¬('A' ≤ d ∧ d ≤ 'Z')) (hdl : d.toNat < 97 ∨ 122 < d.toNat)
    (l : List Char) : d ∈ pyLower l ↔ d ∈ l := by
  unfold pyLower
  rw [List.mem_map]
  constructor
  · rintro ⟨c, hc, hcd⟩
    rw [(pyLowerChar_fixed_iff c d hdu hdl).mp hcd] at hc
    exact hc
  · intro hd
    exact ⟨d, hd, (pyLowerChar_fixed_iff d d hdu hdl).mpr rfl⟩

theorem isC0OrSpace_pyLowerChar (c : Char) :
    isC0OrSpace (pyLowerChar c) = isC0OrSpace c := by
  unfold isC0OrSpace
  rw [pyLowerChar_toNat]
  split
  · rename_i h
    obtain ⟨h1, h2⟩ := upper_bounds_of_upper c h
    rw [decide_eq_false (by omega), decide_eq_false (by omega)]
  · rfl

theorem ne_of_toNat_ne (a b : Char) (h : a.toNat ≠ b.toNat) : a ≠ b := by
  intro hab
  rw [hab] at h
  exact h rfl

theorem isUnsafeByte_toNat (c : Char) :
    isUnsafeByte c =
      (decide (c.toNat = 9) || decide (c.toNat = 13) || decide (c.toNat = 10)) := by
  unfold isUnsafeByte
  have h1 : (decide (c = '\t')) = decide (c.toNat = 9) :=
    decide_eq_decide.mpr (char_eq_iff_toNat c '\t')
  have h2 : (decide (c = '\r')) = decide (c.toNat = 13) :=
    decide_eq_decide.mpr (char_eq_iff_toNat c '\r')
  have h3 : (decide (c = '\n')) = decide (c.toNat = 10) :=
    decide_eq_decide.mpr (char_eq_iff_toNat c '\n')
  rw [h1, h2, h3]

theorem isUnsafeByte_pyLowerChar (c : Char) :
    isUnsafeByte (pyLowerChar c) = isUnsafeByte c := by
  rw [isUnsafeByte_toNat, isUnsafeByte_toNat, pyLowerChar_toNat]
  by_cases hu : 'A' ≤ c ∧ c ≤ 'Z'
  · obtain ⟨h1, h2⟩ := upper_bounds_of_upper c hu
    rw [if_pos hu]
    rw [decide_eq_false (by omega), decide_eq_false (by omega),
      decide_eq_false (by omega), decide_eq_false (by omega),
      decide_eq_false (by omega), decide_eq_false (by omega)]
  · rw [if_neg hu]

/-! # Stage identity lemmas: strings in normal form parse to themselves -/

theorem dropWhile_eq_self_of_head {p : Char → Bool} (l : List Char)
    (h : ∀ c, l.head? = some c → p c = false) : l.dropWhile p = l := by
  cases l with
  | nil => rfl
  | cons c cs =>
    rw [List.dropWhile_cons, h c rfl]
    simp

theorem findIdx?_go_eq_none (a : Char) :
    ∀ (l : List Char), a ∉ l → ∀ i : Nat,
      List.findIdx? (fun x => decide (x = a)) l i = none := by
  intro l
  induction l with
  | nil => intro _ i; rfl
  | cons c cs ih =>
    intro h i
    unfold List.findIdx?
    rw [decide_eq_false (fun hc : c = a => h (hc ▸ List.mem_cons_self c cs))]
    simp only [Bool.false_eq_true, if_false]
    exact ih (fun hm => h (List.mem_cons_of_mem c hm)) (i + 1)

theorem findIdx?_eq_none_of_not_mem (l : List Char) (a : Char) (h : a ∉ l) :
    l.findIdx? (· = a) = none :=
  findIdx?_go_eq_none a l h 0

theorem takeWhile_ne_eq_self (l : List Char) (a : Char) (h : a ∉ l) :
    l.takeWhile (· ≠ a) = l := by
  induction l with
  | nil => rfl
  | cons c cs ih =>
    rw [List.takeWhile_cons]
    have hca : (c ≠ a) := fun hc => h (hc ▸ List.mem_cons_self c cs)
    rw [decide_eq_true hca]
    simp only [if_true]
    rw [ih (fun hm => h (List.mem_cons_of_mem c hm))]

theorem pySplitparams_of_not_mem (l : List Char) (h : ';' ∉ l) :
    pySplitparams l = l := by
  unfold pySplitparams
  rw [if_neg h]

theorem rstripSlash_eq_self (l : List Char) (h : l.getLast? ≠ some '/') :
    rstripSlash l = l := by
  unfold rstripSlash
  rw [dropWhile_eq_self_of_head l.reverse, List.reverse_reverse]
  intro c hc
  rw [List.head?_reverse] at hc
  exact decide_eq_false (fun hcs => h (hcs ▸ hc))

theorem pyReplaceGo_of_no_occur (p : Char) (ps : List Char) :
    ∀ (fuel : Nat) (l : List Char), hasSubstr (p :: ps) l = false →
      pyReplaceGo p ps fuel l = l := by
  intro fuel
  induction fuel with
  | zero => intro l _; cases l <;> rfl
  | succ k ih =>
    intro l hno
    cases l with
    | nil => rfl
    | cons c cs =>
      unfold hasSubstr at hno
      rw [Bool.or_eq_false_iff] at hno
      unfold pyReplaceGo
      rw [if_neg (by simp [hno.1])]
      rw [ih cs hno.2]

theorem pyReplace_of_no_occur (pat l : List Char) (h : hasSubstr pat l = false) :
    pyReplace pat l = l := by
  cases pat with
  | nil => rfl
  | cons p ps => exact pyReplaceGo_of_no_occur p ps l.length l h

theorem take_two_slash_pfx (l : List Char) (h : l.take 2 = ['/', '/']) :
    ['/', '/'].isPrefixOf l = true := by
  cases l with
  | nil => simp at h
  | cons a t =>
    cases t with
    | nil => simp at h
    | cons b u =>
      simp only [List.take_succ_cons, List.take_zero] at h
      injection h with h1 h2
      injection h2 with h3 h4
      subst h1
      subst h3
      simp [List.isPrefixOf]

theorem normalize_fixed (s : List Char)
    (hlow : pyLower s = s)
    (hcolon : ':' ∉ s) (hsemi : ';' ∉ s) (hq : '?' ∉ s) (hhash : '#' ∉ s)
    (hsafe : ∀ c ∈ s, isUnsafeByte c = false)
    (hhead : ∀ c, s.head? = some c → isC0OrSpace c = false)
    (hss : ¬ (['/', '/'].isPrefixOf s = true))
    (hwww : hasSubstr wwwPat s = false)
    (hlast : s.getLast? ≠ some '/') :
    normalizeList s = s := by
  have hclean : cleanUrl s = s := by
    unfold cleanUrl
    rw [dropWhile_eq_self_of_head s hhead]
    rw [List.filter_eq_self.mpr (fun c hc => by rw [hsafe c hc]; rfl)]
  have hscheme : schemeDrop s = s := by
    unfold schemeDrop
    rw [findIdx?_eq_none_of_not_mem s ':' hcolon]
  have hnet : netlocSplit s = ([], s) := by
    unfold netlocSplit
    rw [if_neg (fun ht => hss (take_two_slash_pfx s ht))]
  have hpath : pathOf s = s := by
    unfold pathOf
    rw [takeWhile_ne_eq_self s '#' hhash, takeWhile_ne_eq_self s '?' hq,
      pySplitparams_of_not_mem s hsemi]
  unfold normalizeList normFromParse pyUrlparseNetlocPath
  rw [hlow, hclean, hscheme, hnet]
  rw [if_neg (by simp)]
  show pyReplace wwwPat (rstripSlash ([] ++ pathOf s)) = s
  rw [List.nil_append, hpath, rstripSlash_eq_self s hlast, pyReplace_of_no_occur wwwPat s hwww]


/-! # C6: normalisation is not idempotent -/

/-- C6 counterexample: deleting `www.` occurrences in one left-to-right
pass can splice a new `www.` together, so a second normalisation changes
the result: `wwwww.w.` normalises to `www.` and then to the empty string. -/
theorem C6_counterexample :
    _normalize_url (_normalize_url "wwwww.w.") ≠ _normalize_url "wwwww.w." ∧
    _normalize_url "wwwww.w." = "www." ∧
    _normalize_url (_normalize_url "wwwww.w.") = "" := by
  refine ⟨by decide, by decide, by decide⟩

/-- C6 amended: normalisation is idempotent on every URL whose normalised
form is already in normal form — lowercase, free of `:`, `;`, `?`, `#`,
tab/CR/LF and of the substring `www.`, not starting with `//` or a
control/space character, and not ending in `/`. -/
theorem C6_normalize_idempotent_on_stable (u : String)
    (hlow : pyLower (_normalize_url u).data = (_normalize_url u).data)
    (hcolon : ':' ∉ (_normalize_url u).data)
    (hsemi : ';' ∉ (_normalize_url u).data)
    (hq : '?' ∉ (_normalize_url u).data)
    (hhash : '#' ∉ (_normalize_url u).data)
    (hsafe : ∀ c ∈ (_normalize_url u).data, isUnsafeByte c = false)
    (hhead : isC0OrSpace ((_normalize_url u).data.headD '0') = false)
    (hss : ¬ (['/', '/'].isPrefixOf (_normalize_url u).data = true))
    (hwww : hasSubstr wwwPat (_normalize_url u).data = false)
    (hlast : (_normalize_url u).data.getLast? ≠ some '/') :
    _normalize_url (_normalize_url u) = _normalize_url u := by
  have hhead' : ∀ c, (_normalize_url u).data.head? = some c → isC0OrSpace c = false := by
    intro c hc
    cases hl : (_normalize_url u).data with
    | nil => rw [hl] at hc; exact absurd hc (by simp)
    | cons a t =>
      rw [hl] at hc
      injection hc with h
      subst h
      rw [hl] at hhead
      exact hhead
  have h := normalize_fixed (normalizeList u.data) hlow hcolon hsemi hq hhash
    hsafe hhead' hss hwww hlast
  show (⟨normalizeList (normalizeList u.data)⟩ : String) = ⟨normalizeList u.data⟩
  rw [h]

/-- C6 witness: the conditions hold for `http://www.example.com/abc`,
whose normal form `example.com/abc` is a fixed point. -/
theorem C6_normalize_idempotent_on_stable_witness :
    _normalize_url "http://www.example.com/abc" = "example.com/abc" ∧
    _normalize_url (_normalize_url "http://www.example.com/abc") =
      _normalize_url "http://www.example.com/abc" :=
  ⟨by decide,
   C6_normalize_idempotent_on_stable "http://www.example.com/abc"
     (by decide) (by decide) (by decide) (by decide) (by decide)
     (by decide) (by decide) (by decide) (by decide) (by decide)⟩

/-! # C5: what normalisation actually removes -/

/-- C5 counterexample: `www.` is removed everywhere, not only as a leading
prefix (`http://example.com/www.foo` loses the `www.` inside its path);
and two URLs differing only in a trailing slash (with `;` in the path) or
only in a leading `www.` (before `//`) can normalise differently. -/
theorem C5_counterexample :
    _normalize_url "http://example.com/www.foo" = "example.com/foo" ∧
    specNormalizeLeadingWWW "http://example.com/www.foo".data =
      "example.com/www.foo".data ∧
    normalizeList "http://example.com/www.foo".data ≠
      specNormalizeLeadingWWW "http://example.com/www.foo".data ∧
    _normalize_url "http://h/a;b/" ≠ _normalize_url "http://h/a;b" ∧
    _normalize_url "www.//a" ≠ _normalize_url "//a" := by
  refine ⟨by decide, by decide, by decide, by decide, by decide⟩


/-! # Append lemmas for the slash- and www-invariance of normalisation -/

theorem takeWhile_append_single_neg {q : Char → Bool} (a : Char) (ha : q a = false) :
    ∀ x : List Char, (x ++ [a]).takeWhile q = x.takeWhile q := by
  intro x
  induction x with
  | nil =>
    show ([a] : List Char).takeWhile q = []
    rw [List.takeWhile_cons, ha]
    rfl
  | cons c cs ih =>
    rw [List.cons_append, List.takeWhile_cons, List.takeWhile_cons]
    cases hq : q c
    · rfl
    · rw [if_pos rfl, if_pos rfl, ih]

theorem dropWhile_append_single_neg {q : Char → Bool} (a : Char) (ha : q a = false) :
    ∀ x : List Char, (x ++ [a]).dropWhile q = x.dropWhile q ++ [a] := by
  intro x
  induction x with
  | nil =>
    show ([a] : List Char).dropWhile q = [] ++ [a]
    rw [List.dropWhile_cons, ha]
    rfl
  | cons c cs ih =>
    rw [List.cons_append, List.dropWhile_cons, List.dropWhile_cons]
    cases hq : q c
    · rw [if_neg Bool.false_ne_true, if_neg Bool.false_ne_true]
      rfl
    · rw [if_pos rfl, if_pos rfl, ih]

theorem takeWhile_append_all_pass {q : Char → Bool} :
    ∀ (x : List Char), x.all q = true → ∀ y, (x ++ y).takeWhile q = x ++ y.takeWhile q := by
  intro x
  induction x with
  | nil => intro _ y; rfl
  | cons c cs ih =>
    intro hall y
    rw [List.all_cons, Bool.and_eq_true] at hall
    rw [List.cons_append, List.takeWhile_cons, hall.1]
    rw [if_pos rfl, ih hall.2 y]
    rfl

theorem takeWhile_append_stop {q : Char → Bool} :
    ∀ (x : List Char), x.all q = false → ∀ y, (x ++ y).takeWhile q = x.takeWhile q := by
  intro x
  induction x with
  | nil => intro h; simp at h
  | cons c cs ih =>
    intro hall y
    rw [List.cons_append, List.takeWhile_cons, List.takeWhile_cons]
    cases hq : q c
    · rfl
    · rw [List.all_cons, hq, Bool.true_and] at hall
      rw [if_pos rfl, if_pos rfl, ih hall y]

theorem dropWhile_append_stop {q : Char → Bool} :
    ∀ (x : List Char), x.all q = false → ∀ y, (x ++ y).dropWhile q = x.dropWhile q ++ y := by
  intro x
  induction x with
  | nil => intro h; simp at h
  | cons c cs ih =>
    intro hall y
    rw [List.cons_append, List.dropWhile_cons, List.dropWhile_cons]
    cases hq : q c
    · rw [if_neg Bool.false_ne_true, if_neg Bool.false_ne_true]
      rfl
    · rw [List.all_cons, hq, Bool.true_and] at hall
      rw [if_pos rfl, if_pos rfl, ih hall y]

theorem findIdx?_append_single {p : Char → Bool} (a : Char) (ha : p a = false) :
    ∀ (x : List Char) (i : Nat), List.findIdx? p (x ++ [a]) i = List.findIdx? p x i := by
  intro x
  induction x with
  | nil =>
    intro i
    show List.findIdx? p [a] i = none
    unfold List.findIdx?
    rw [ha]
    rfl
  | cons c cs ih =>
    intro i
    rw [List.cons_append]
    unfold List.findIdx?
    cases hq : p c
    · rw [if_neg Bool.false_ne_true, if_neg Bool.false_ne_true]
      exact ih (i + 1)
    · rfl

theorem findIdx?_some_bounds {p : Char → Bool} :
    ∀ (x : List Char) (i j : Nat), List.findIdx? p x i = some j → i ≤ j ∧ j < i + x.length := by
  intro x
  induction x with
  | nil => intro i j h; exact absurd h (by simp [List.findIdx?])
  | cons c cs ih =>
    intro i j h
    unfold List.findIdx? at h
    cases hq : p c
    · rw [hq, if_neg Bool.false_ne_true] at h
      have := ih (i + 1) j h
      rw [List.length_cons]
      omega
    · rw [hq, if_pos rfl] at h
      injection h with h'
      rw [List.length_cons]
      omega

theorem mem_to_all_false (a : Char) (x : List Char) (h : a ∈ x) :
    x.all (fun c => decide (c ≠ a)) = false :=
  List.all_eq_false.mpr ⟨a, h, by simp⟩

theorem not_mem_to_all_true (a : Char) (x : List Char) (h : a ∉ x) :
    x.all (fun c => decide (c ≠ a)) = true :=
  List.all_eq_true.mpr (fun c hc => decide_eq_true (fun he => h (he ▸ hc)))

theorem rstrip_append_slash (x : List Char) :
    rstripSlash (x ++ ['/']) = rstripSlash x := by
  unfold rstripSlash
  rw [List.reverse_append]
  have h1 : (['/'] : List Char).reverse ++ x.reverse = '/' :: x.reverse := rfl
  rw [h1, List.dropWhile_cons, decide_eq_true rfl, if_pos rfl]

theorem dropWhile_all_pass_slash :
    ∀ (x : List Char), x.all (· = '/') = true →
      ∀ y : List Char, (x ++ y).dropWhile (· = '/') = y.dropWhile (· = '/') := by
  intro x
  induction x with
  | nil => intro _ y; rfl
  | cons c cs ih =>
    intro hall y
    rw [List.all_cons, Bool.and_eq_true] at hall
    rw [List.cons_append, List.dropWhile_cons, hall.1, if_pos rfl]
    exact ih hall.2 y

theorem dropWhile_nil_all {p : Char → Bool} :
    ∀ (l : List Char), l.dropWhile p = [] → l.all p = true := by
  intro l
  induction l with
  | nil => intro _; rfl
  | cons a t ih =>
    intro h
    rw [List.dropWhile_cons] at h
    cases hq : p a
    · rw [hq, if_neg Bool.false_ne_true] at h
      exact absurd h (by simp)
    · rw [hq, if_pos rfl] at h
      rw [List.all_cons, hq, Bool.true_and]
      exact ih h

theorem dropWhile_head_not {p : Char → Bool} :
    ∀ (l : List Char) (c : Char) (cs : List Char), l.dropWhile p = c :: cs → p c = false := by
  intro l
  induction l with
  | nil => intro c cs h; exact absurd h (by simp)
  | cons a t ih =>
    intro c cs h
    rw [List.dropWhile_cons] at h
    cases hq : p a
    · rw [hq, if_neg Bool.false_ne_true] at h
      injection h with h1 h2
      subst h1
      exact hq
    · rw [hq, if_pos rfl] at h
      exact ih c cs h

theorem rstrip_append (a b : List Char) :
    rstripSlash (a ++ b) =
      if rstripSlash b = [] then rstripSlash a else a ++ rstripSlash b := by
  by_cases hb : rstripSlash b = []
  · rw [if_pos hb]
    have hb' : b.reverse.dropWhile (· = '/') = [] := by
      unfold rstripSlash at hb
      have h2 := congrArg List.reverse hb
      rw [List.reverse_reverse] at h2
      exact h2
    unfold rstripSlash
    rw [List.reverse_append,
      dropWhile_all_pass_slash b.reverse (dropWhile_nil_all b.reverse hb') a.reverse]
  · rw [if_neg hb]
    have hb' : b.reverse.dropWhile (· = '/') ≠ [] := by
      intro h
      apply hb
      unfold rstripSlash
      rw [h]
      rfl
    rcases hx : b.reverse.dropWhile (· = '/') with _ | ⟨c, cs⟩
    · exact absurd hx hb'
    · have hcne : ¬ (c = '/') := of_decide_eq_false (dropWhile_head_not b.reverse c cs hx)
      have hsub : (List.dropWhile (fun x => decide (x = '/')) b.reverse).Sublist b.reverse :=
        List.dropWhile_sublist _
      have hmem : c ∈ b.reverse := by
        rw [hx] at hsub
        exact hsub.subset (List.mem_cons_self c cs)
      unfold rstripSlash
      rw [List.reverse_append]
      rw [dropWhile_append_stop b.reverse
        (List.all_eq_false.mpr ⟨c, hmem, by simp [hcne]⟩) a.reverse]
      rw [List.reverse_append, List.reverse_reverse]


theorem cleanUrl_sublist (w : List Char) : (cleanUrl w).Sublist w := by
  unfold cleanUrl
  exact (List.filter_sublist _).trans (List.dropWhile_sublist _)

theorem schemeDrop_sublist (w : List Char) : (schemeDrop w).Sublist w := by
  unfold schemeDrop
  cases hf : w.findIdx? (· = ':') with
  | none => exact List.Sublist.refl w
  | some i =>
    show (if 0 < i ∧ isAsciiAlpha (w.headD ' ') ∧ (w.take i).all isSchemeChar
        then w.drop (i + 1) else w).Sublist w
    split
    · exact List.drop_sublist _ _
    · exact List.Sublist.refl w

theorem netlocSplit_fst_sublist (r : List Char) : (netlocSplit r).1.Sublist r := by
  unfold netlocSplit
  split
  · exact ((List.takeWhile_sublist _).trans (List.drop_sublist 2 r))
  · exact List.nil_sublist r

theorem netlocSplit_snd_sublist (r : List Char) : (netlocSplit r).2.Sublist r := by
  unfold netlocSplit
  split
  · exact ((List.dropWhile_sublist _).trans (List.drop_sublist 2 r))
  · exact List.Sublist.refl r

theorem contains_false_of_not_mem (l : List Char) (a : Char) (h : a ∉ l) :
    l.contains a = false := by
  cases hc : l.contains a
  · rfl
  · exact absurd (List.mem_of_elem_eq_true hc) h

theorem schemeDrop_append_single (x : List Char) (a : Char) (ha : a ≠ ':') :
    schemeDrop (x ++ [a]) = schemeDrop x ++ [a] := by
  unfold schemeDrop
  rw [findIdx?_append_single a (decide_eq_false ha) x 0]
  cases hf : List.findIdx? (fun c => decide (c = ':')) x 0 with
  | none => rfl
  | some i =>
    obtain ⟨hi0, hilt⟩ := findIdx?_some_bounds x 0 i hf
    have hne : x ≠ [] := by
      intro h
      rw [h] at hilt
      simp at hilt
    have hhead : (x ++ [a]).headD ' ' = x.headD ' ' := by
      cases x with
      | nil => exact absurd rfl hne
      | cons c cs => rfl
    have htake : (x ++ [a]).take i = x.take i := by
      rw [List.take_append_of_le_length (by omega)]
    simp only [hhead, htake]
    by_cases hg : 0 < i ∧ isAsciiAlpha (x.headD ' ') ∧ (x.take i).all isSchemeChar
    · rw [if_pos hg, if_pos hg, List.drop_append_of_le_length (by omega)]
    · rw [if_neg hg, if_neg hg]

theorem path_slash (n x : List Char) (hsemi : ';' ∉ x) :
    rstripSlash (n ++ pathOf (x ++ ['/'])) = rstripSlash (n ++ pathOf x) := by
  unfold pathOf
  by_cases hh : '#' ∈ x
  · rw [takeWhile_append_stop x (mem_to_all_false '#' x hh) ['/']]
  · have hx1 : (x ++ ['/']).takeWhile (· ≠ '#') = x ++ ['/'] := by
      rw [takeWhile_append_all_pass x (not_mem_to_all_true '#' x hh)]
      have hsl : (['/'] : List Char).takeWhile (· ≠ '#') = ['/'] := by decide
      rw [hsl]
    have hx1' : x.takeWhile (· ≠ '#') = x := takeWhile_ne_eq_self x '#' hh
    rw [hx1, hx1']
    by_cases hq : '?' ∈ x
    · rw [takeWhile_append_stop x (mem_to_all_false '?' x hq) ['/']]
    · have hx2 : (x ++ ['/']).takeWhile (· ≠ '?') = x ++ ['/'] := by
        rw [takeWhile_append_all_pass x (not_mem_to_all_true '?' x hq)]
        have hsl : (['/'] : List Char).takeWhile (· ≠ '?') = ['/'] := by decide
        rw [hsl]
      have hx2' : x.takeWhile (· ≠ '?') = x := takeWhile_ne_eq_self x '?' hq
      rw [hx2, hx2']
      have hs1 : pySplitparams (x ++ ['/']) = x ++ ['/'] := by
        apply pySplitparams_of_not_mem
        intro hm
        rcases List.mem_append.mp hm with h | h
        · exact hsemi h
        · simp at h
      rw [hs1, pySplitparams_of_not_mem x hsemi, ← List.append_assoc, rstrip_append_slash]


theorem normalize_core_slash (r : List Char)
    (hsemi : ';' ∉ r) (hlb : '[' ∉ r) (hrb : ']' ∉ r) :
    pyReplace wwwPat (rstripSlash
        ((netlocSplit (r ++ ['/'])).1 ++ pathOf (netlocSplit (r ++ ['/'])).2)) =
      pyReplace wwwPat (rstripSlash ((netlocSplit r).1 ++ pathOf (netlocSplit r).2)) := by
  rcases r with _ | ⟨c1, r1⟩
  · decide
  rcases r1 with _ | ⟨c2, t⟩
  · by_cases hc1 : c1 = '/'
    · subst hc1
      decide
    · have h1 : netlocSplit [c1] = ([], [c1]) := by
        unfold netlocSplit
        rw [if_neg (by simp)]
      have h2 : netlocSplit ([c1] ++ ['/']) = ([], [c1] ++ ['/']) := by
        unfold netlocSplit
        rw [if_neg (by simp [hc1])]
      rw [h1, h2]
      exact congrArg (pyReplace wwwPat) (path_slash [] [c1] (by
        intro hm
        exact hsemi hm))
  · by_cases h12 : c1 = '/' ∧ c2 = '/'
    · obtain ⟨rfl, rfl⟩ := h12
      have hq : (fun c => !isNetlocEnd c) '/' = false := by decide
      have h1 : netlocSplit ('/' :: '/' :: t) =
          (t.takeWhile (fun c => !isNetlocEnd c), t.dropWhile (fun c => !isNetlocEnd c)) := by
        unfold netlocSplit
        rw [if_pos (show List.take 2 ('/' :: '/' :: t) = ['/', '/'] from rfl)]
        rfl
      have h2 : netlocSplit (('/' :: '/' :: t) ++ ['/']) =
          (t.takeWhile (fun c => !isNetlocEnd c),
           t.dropWhile (fun c => !isNetlocEnd c) ++ ['/']) := by
        unfold netlocSplit
        rw [if_pos (show List.take 2 (('/' :: '/' :: t) ++ ['/']) = ['/', '/'] from rfl)]
        show ((t ++ ['/']).takeWhile (fun c => !isNetlocEnd c),
          (t ++ ['/']).dropWhile (fun c => !isNetlocEnd c)) = _
        rw [takeWhile_append_single_neg '/' hq t, dropWhile_append_single_neg '/' hq t]
      rw [h1, h2]
      refine congrArg (pyReplace wwwPat) (path_slash _ _ ?_)
      intro hm
      apply hsemi
      have hsub : (t.dropWhile (fun c => !isNetlocEnd c)).Sublist ('/' :: '/' :: t) :=
        (List.dropWhile_sublist _).trans ((List.sublist_cons_self _ _).trans
          (List.sublist_cons_self _ _))
      exact hsub.subset hm
    · have hne : ¬ (List.take 2 (c1 :: c2 :: t) = ['/', '/']) := by
        intro h
        simp only [List.take_succ_cons, List.take_zero] at h
        injection h with ha hb
        injection hb with hb hc
        exact h12 ⟨ha, hb⟩
      have hne' : ¬ (List.take 2 ((c1 :: c2 :: t) ++ ['/']) = ['/', '/']) := by
        intro h
        simp only [List.cons_append, List.take_succ_cons, List.take_zero] at h
        injection h with ha hb
        injection hb with hb hc
        exact h12 ⟨ha, hb⟩
      have h1 : netlocSplit (c1 :: c2 :: t) = ([], c1 :: c2 :: t) := by
        unfold netlocSplit
        rw [if_neg hne]
      have h2 : netlocSplit ((c1 :: c2 :: t) ++ ['/']) = ([], (c1 :: c2 :: t) ++ ['/']) := by
        unfold netlocSplit
        rw [if_neg hne']
      rw [h1, h2]
      exact congrArg (pyReplace wwwPat) (path_slash [] (c1 :: c2 :: t) hsemi)


theorem normalize_append_slash (u : List Char)
    (hsemi : ';' ∉ u) (hlb : '[' ∉ u) (hrb : ']' ∉ u) :
    normalizeList (u ++ ['/']) = normalizeList u := by
  have hlow : pyLower (u ++ ['/']) = pyLower u ++ ['/'] := by
    unfold pyLower
    rw [List.map_append]
    have hm : List.map pyLowerChar ['/'] = ['/'] := by decide
    rw [hm]
  have hsw : ';' ∉ pyLower u :=
    fun h => hsemi ((mem_pyLower_iff ';' (by decide) (by decide) u).mp h)
  have hlw : '[' ∉ pyLower u :=
    fun h => hlb ((mem_pyLower_iff '[' (by decide) (by decide) u).mp h)
  have hrw : ']' ∉ pyLower u :=
    fun h => hrb ((mem_pyLower_iff ']' (by decide) (by decide) u).mp h)
  have hclean : cleanUrl (pyLower u ++ ['/']) = cleanUrl (pyLower u) ++ ['/'] := by
    unfold cleanUrl
    rw [dropWhile_append_single_neg '/' (by decide) (pyLower u), List.filter_append]
    have hf : List.filter (fun c => !isUnsafeByte c) ['/'] = ['/'] := by decide
    rw [hf]
  have hsc : ';' ∉ cleanUrl (pyLower u) := fun h => hsw ((cleanUrl_sublist _).subset h)
  have hlc : '[' ∉ cleanUrl (pyLower u) := fun h => hlw ((cleanUrl_sublist _).subset h)
  have hrc : ']' ∉ cleanUrl (pyLower u) := fun h => hrw ((cleanUrl_sublist _).subset h)
  have hsch : schemeDrop (cleanUrl (pyLower u) ++ ['/']) =
      schemeDrop (cleanUrl (pyLower u)) ++ ['/'] :=
    schemeDrop_append_single _ '/' (by decide)
  have hsr : ';' ∉ schemeDrop (cleanUrl (pyLower u)) :=
    fun h => hsc ((schemeDrop_sublist _).subset h)
  have hlr : '[' ∉ schemeDrop (cleanUrl (pyLower u)) :=
    fun h => hlc ((schemeDrop_sublist _).subset h)
  have hrr : ']' ∉ schemeDrop (cleanUrl (pyLower u)) :=
    fun h => hrc ((schemeDrop_sublist _).subset h)
  have heq := normalize_core_slash (schemeDrop (cleanUrl (pyLower u))) hsr hlr hrr
  have hlr' : '[' ∉ schemeDrop (cleanUrl (pyLower u)) ++ ['/'] := by
    intro hm
    rcases List.mem_append.mp hm with h | h
    · exact hlr h
    · simp at h
  have hrr' : ']' ∉ schemeDrop (cleanUrl (pyLower u)) ++ ['/'] := by
    intro hm
    rcases List.mem_append.mp hm with h | h
    · exact hrr h
    · simp at h
  have hcl1 : ((netlocSplit (schemeDrop (cleanUrl (pyLower u)) ++ ['/'])).1.contains '[') = false :=
    contains_false_of_not_mem _ _ (fun h => hlr' ((netlocSplit_fst_sublist _).subset h))
  have hcl2 : ((netlocSplit (schemeDrop (cleanUrl (pyLower u)) ++ ['/'])).1.contains ']') = false :=
    contains_false_of_not_mem _ _ (fun h => hrr' ((netlocSplit_fst_sublist _).subset h))
  have hcl3 : ((netlocSplit (schemeDrop (cleanUrl (pyLower u)))).1.contains '[') = false :=
    contains_false_of_not_mem _ _ (fun h => hlr ((netlocSplit_fst_sublist _).subset h))
  have hcl4 : ((netlocSplit (schemeDrop (cleanUrl (pyLower u)))).1.contains ']') = false :=
    contains_false_of_not_mem _ _ (fun h => hrr ((netlocSplit_fst_sublist _).subset h))
  unfold normalizeList normFromParse pyUrlparseNetlocPath
  rw [hlow, hclean, hsch]
  rw [if_neg (by rw [hcl1, hcl2]; simp), if_neg (by rw [hcl3, hcl4]; simp)]
  exact heq

theorem normalize_lower_congr (u v : List Char) (h : pyLower u = pyLower v)
    (hsome : (pyUrlparseNetlocPath (pyLower u)).isSome = true) :
    normalizeList u = normalizeList v := by
  unfold normalizeList normFromParse
  cases hp : pyUrlparseNetlocPath (pyLower v) with
  | none =>
    rw [h, hp] at hsome
    simp at hsome
  | some np =>
    rw [h, hp]
    rfl


theorem nil_isPrefixOf (l : List Char) : ([] : List Char).isPrefixOf l = true := by
  cases l <;> rfl

theorem pyReplaceGo_cons_succ (p : Char) (ps : List Char) (fuel : Nat) (c : Char)
    (cs : List Char) :
    pyReplaceGo p ps (fuel + 1) (c :: cs) =
      if (p :: ps).isPrefixOf (c :: cs) then pyReplaceGo p ps fuel (cs.drop ps.length)
      else c :: pyReplaceGo p ps fuel cs := rfl

theorem beq_slash_pyLowerChar (c : Char) :
    (('/' : Char) == pyLowerChar c) = (('/' : Char) == c) := by
  have h := pyLowerChar_fixed_iff c '/' (by decide) (by decide)
  rw [Bool.eq_iff_iff, beq_iff_eq, beq_iff_eq]
  constructor
  · intro hh
    exact (h.mp hh.symm).symm
  · intro hh
    exact (h.mpr hh.symm).symm

theorem ssPrefixOf_pyLower (u : List Char) :
    (['/', '/'].isPrefixOf (pyLower u)) = (['/', '/'].isPrefixOf u) := by
  rcases u with _ | ⟨c, u1⟩
  · rfl
  rcases u1 with _ | ⟨d, u2⟩
  · show (('/' : Char) == pyLowerChar c && ['/'].isPrefixOf []) =
      (('/' : Char) == c && ['/'].isPrefixOf [])
    rw [beq_slash_pyLowerChar c]
  · show (('/' : Char) == pyLowerChar c &&
        (('/' : Char) == pyLowerChar d && [].isPrefixOf (pyLower u2))) =
      (('/' : Char) == c && (('/' : Char) == d && [].isPrefixOf u2))
    rw [beq_slash_pyLowerChar c, beq_slash_pyLowerChar d,
      nil_isPrefixOf (pyLower u2), nil_isPrefixOf u2]

theorem splitparams_www (y : List Char) :
    pySplitparams (wwwPat ++ y) = wwwPat ++ pySplitparams y := by
  unfold pySplitparams
  by_cases hsem : ';' ∈ y
  · have hsem' : ';' ∈ wwwPat ++ y := List.mem_append.mpr (Or.inr hsem)
    rw [if_pos hsem', if_pos hsem]
    by_cases hsl : '/' ∈ y
    · have hsl' : '/' ∈ wwwPat ++ y := List.mem_append.mpr (Or.inr hsl)
      rw [if_pos hsl', if_pos hsl]
      have hstop : y.reverse.all (fun c => decide (c ≠ '/')) = false :=
        mem_to_all_false '/' y.reverse (List.mem_reverse.mpr hsl)
      have hseg : ((wwwPat ++ y).reverse.takeWhile (· ≠ '/')).reverse =
          (y.reverse.takeWhile (· ≠ '/')).reverse := by
        rw [List.reverse_append, takeWhile_append_stop y.reverse hstop wwwPat.reverse]
      have hpre : ((wwwPat ++ y).reverse.dropWhile (· ≠ '/')).reverse =
          wwwPat ++ (y.reverse.dropWhile (· ≠ '/')).reverse := by
        rw [List.reverse_append, dropWhile_append_stop y.reverse hstop wwwPat.reverse,
          List.reverse_append, List.reverse_reverse]
      rw [hseg, hpre]
      by_cases hsegsem : ';' ∈ (y.reverse.takeWhile (· ≠ '/')).reverse
      · rw [if_pos hsegsem, if_pos hsegsem, List.append_assoc]
      · rw [if_neg hsegsem, if_neg hsegsem]
    · have hsl' : '/' ∉ wwwPat ++ y := by
        intro hm
        rcases List.mem_append.mp hm with h | h
        · exact absurd h (by decide)
        · exact hsl h
      rw [if_neg hsl', if_neg hsl]
      exact takeWhile_append_all_pass wwwPat (by decide) y
  · have hsem' : ';' ∉ wwwPat ++ y := by
      intro hm
      rcases List.mem_append.mp hm with h | h
      · exact absurd h (by decide)
      · exact hsem h
    rw [if_neg hsem', if_neg hsem]

theorem path_www (x : List Char) : pathOf (wwwPat ++ x) = wwwPat ++ pathOf x := by
  unfold pathOf
  rw [takeWhile_append_all_pass wwwPat (by decide) x,
    takeWhile_append_all_pass wwwPat (by decide) (x.takeWhile (· ≠ '#')),
    splitparams_www]

theorem pyReplaceGo_fuel_mono (p : Char) (ps : List Char) :
    ∀ (f1 : Nat) (l : List Char) (f2 : Nat), l.length ≤ f1 → l.length ≤ f2 →
      pyReplaceGo p ps f1 l = pyReplaceGo p ps f2 l := by
  intro f1
  induction f1 with
  | zero =>
    intro l f2 h1 h2
    have hl : l = [] := List.length_eq_zero.mp (Nat.le_zero.mp h1)
    subst hl
    cases f2 <;> rfl
  | succ k ih =>
    intro l f2 h1 h2
    cases l with
    | nil => cases f2 <;> rfl
    | cons c cs =>
      cases f2 with
      | zero =>
        rw [List.length_cons] at h2
        omega
      | succ m =>
        unfold pyReplaceGo
        by_cases hp : (p :: ps).isPrefixOf (c :: cs) = true
        · rw [if_pos hp, if_pos hp]
          apply ih
          · have hd := List.length_drop ps.length cs
            rw [List.length_cons] at h1
            omega
          · have hd := List.length_drop ps.length cs
            rw [List.length_cons] at h2
            omega
        · rw [if_neg hp, if_neg hp]
          rw [ih cs m (by rw [List.length_cons] at h1; omega)
            (by rw [List.length_cons] at h2; omega)]

theorem isPrefixOf_append_self : ∀ (l z : List Char), l.isPrefixOf (l ++ z) = true := by
  intro l
  induction l with
  | nil => intro z; exact nil_isPrefixOf ([] ++ z)
  | cons c cs ih =>
    intro z
    show (c == c && cs.isPrefixOf (cs ++ z)) = true
    rw [ih z, beq_self_eq_true]
    rfl

theorem pyReplace_pat_prefix (p : Char) (ps z : List Char) :
    pyReplace (p :: ps) ((p :: ps) ++ z) = pyReplace (p :: ps) z := by
  show pyReplaceGo p ps ((p :: ps) ++ z).length ((p :: ps) ++ z) = pyReplaceGo p ps z.length z
  rw [List.cons_append, List.length_cons, pyReplaceGo_cons_succ,
    if_pos (show (p :: ps).isPrefixOf (p :: (ps ++ z)) = true from
      isPrefixOf_append_self (p :: ps) z),
    List.drop_left ps z]
  apply pyReplaceGo_fuel_mono
  · rw [List.length_append]
    omega
  · exact Nat.le_refl _

theorem pyReplace_www_prefix (z : List Char) :
    pyReplace wwwPat (wwwPat ++ z) = pyReplace wwwPat z :=
  pyReplace_pat_prefix 'w' ['w', 'w', '.'] z


theorem replace_rstrip_www (y : List Char) :
    pyReplace wwwPat (rstripSlash (wwwPat ++ y)) = pyReplace wwwPat (rstripSlash y) := by
  rw [rstrip_append wwwPat y]
  by_cases hy : rstripSlash y = []
  · rw [if_pos hy, hy]
    decide
  · rw [if_neg hy]
    exact pyReplace_www_prefix (rstripSlash y)

theorem normalize_www (u : List Char)
    (hcolon : ':' ∉ u)
    (hsafe : ∀ c ∈ u, isUnsafeByte c = false)
    (hss : ¬ (['/', '/'].isPrefixOf u = true))
    (hhead : ∀ c, u.head? = some c → isC0OrSpace c = false) :
    normalizeList (wwwPat ++ u) = normalizeList u := by
  have hlow : pyLower (wwwPat ++ u) = wwwPat ++ pyLower u := by
    unfold pyLower
    rw [List.map_append]
    have hm : List.map pyLowerChar wwwPat = wwwPat := by decide
    rw [hm]
  have hcv : ':' ∉ pyLower u :=
    fun h => hcolon ((mem_pyLower_iff ':' (by decide) (by decide) u).mp h)
  have huv : ∀ c ∈ pyLower u, isUnsafeByte c = false := by
    intro c hc
    have hc' : c ∈ List.map pyLowerChar u := hc
    obtain ⟨d, hd, hde⟩ := List.mem_map.mp hc'
    rw [← hde, isUnsafeByte_pyLowerChar]
    exact hsafe d hd
  have hssv : ¬ (['/', '/'].isPrefixOf (pyLower u) = true) := by
    rw [ssPrefixOf_pyLower]
    exact hss
  have hheadv : ∀ c, (pyLower u).head? = some c → isC0OrSpace c = false := by
    intro c hc
    cases u with
    | nil => exact absurd hc (by simp [pyLower])
    | cons d ds =>
      have he : (pyLower (d :: ds)).head? = some (pyLowerChar d) := rfl
      rw [he] at hc
      injection hc with hc
      rw [← hc, isC0OrSpace_pyLowerChar]
      exact hhead d rfl
  have hclean : cleanUrl (pyLower u) = pyLower u := by
    unfold cleanUrl
    rw [dropWhile_eq_self_of_head (pyLower u) hheadv,
      List.filter_eq_self.mpr (fun c hc => by rw [huv c hc]; rfl)]
  have hcleanw : cleanUrl (wwwPat ++ pyLower u) = wwwPat ++ pyLower u := by
    unfold cleanUrl
    have hhw : ∀ c, (wwwPat ++ pyLower u).head? = some c → isC0OrSpace c = false := by
      intro c hc
      have he : (wwwPat ++ pyLower u).head? = some 'w' := rfl
      rw [he] at hc
      injection hc with hc
      rw [← hc]
      decide
    rw [dropWhile_eq_self_of_head (wwwPat ++ pyLower u) hhw, List.filter_append]
    have hfw : wwwPat.filter (fun c => !isUnsafeByte c) = wwwPat := by decide
    rw [hfw, List.filter_eq_self.mpr (fun c hc => by rw [huv c hc]; rfl)]
  have hcw : ':' ∉ wwwPat ++ pyLower u := by
    intro hm
    rcases List.mem_append.mp hm with h | h
    · exact absurd h (by decide)
    · exact hcv h
  have hscheme : schemeDrop (pyLower u) = pyLower u := by
    unfold schemeDrop
    rw [findIdx?_eq_none_of_not_mem (pyLower u) ':' hcv]
  have hschemew : schemeDrop (wwwPat ++ pyLower u) = wwwPat ++ pyLower u := by
    unfold schemeDrop
    rw [findIdx?_eq_none_of_not_mem (wwwPat ++ pyLower u) ':' hcw]
  have hnet : netlocSplit (pyLower u) = ([], pyLower u) := by
    unfold netlocSplit
    rw [if_neg (fun ht => hssv (take_two_slash_pfx (pyLower u) ht))]
  have hnetw : netlocSplit (wwwPat ++ pyLower u) = ([], wwwPat ++ pyLower u) := by
    unfold netlocSplit
    rw [if_neg (show ¬ ((wwwPat ++ pyLower u).take 2 = ['/', '/']) from by
      intro ht
      have htw : (wwwPat ++ pyLower u).take 2 = ['w', 'w'] := rfl
      rw [htw] at ht
      exact absurd ht (by decide))]
  unfold normalizeList normFromParse pyUrlparseNetlocPath
  rw [hlow, hcleanw, hclean, hschemew, hscheme, hnetw, hnet]
  rw [if_neg (by simp), if_neg (by simp)]
  show pyReplace wwwPat (rstripSlash ([] ++ pathOf (wwwPat ++ pyLower u))) =
    pyReplace wwwPat (rstripSlash ([] ++ pathOf (pyLower u)))
  rw [List.nil_append, List.nil_append, path_www (pyLower u),
    replace_rstrip_www (pathOf (pyLower u))]


/-- C5 amended: the stored normalised URL is the lowercased
netloc-plus-path of the parsed URL with trailing slashes stripped and
EVERY occurrence of `www.` deleted (not only a leading prefix).  The
deduplication consequences hold in this form: (1) two URLs with the same
lowering normalise alike whenever the lowered URL parses; (2) a trailing
slash is irrelevant when the URL is free of `;`, `[` and `]`; (3) a
leading `www.` is irrelevant when the URL has no scheme colon, no
tab/CR/LF, does not start with `//` and does not start with a
control/space character. -/
theorem C5_normalize_characterization (u : String) :
    (∀ v : String, pyLower v.data = pyLower u.data →
        (pyUrlparseNetlocPath (pyLower u.data)).isSome = true →
        _normalize_url v = _normalize_url u) ∧
    (';' ∉ u.data → '[' ∉ u.data → ']' ∉ u.data →
        _normalize_url (u ++ "/") = _normalize_url u) ∧
    (':' ∉ u.data → (∀ c ∈ u.data, isUnsafeByte c = false) →
        ¬ (['/', '/'].isPrefixOf u.data = true) →
        isC0OrSpace (u.data.headD '0') = false →
        _normalize_url ("www." ++ u) = _normalize_url u) := by
  refine ⟨?_, ?_, ?_⟩
  · intro v h hsome
    have hsome' : (pyUrlparseNetlocPath (pyLower v.data)).isSome = true := by
      rw [h]
      exact hsome
    exact congrArg String.mk (normalize_lower_congr v.data u.data h hsome')
  · intro h1 h2 h3
    have hd : (u ++ "/").data = u.data ++ ['/'] := rfl
    have hn : normalizeList (u ++ "/").data = normalizeList u.data := by
      rw [hd]
      exact normalize_append_slash u.data h1 h2 h3
    exact congrArg String.mk hn
  · intro h1 h2 h3 h4
    have hhead : ∀ c, u.data.head? = some c → isC0OrSpace c = false := by
      intro c hc
      cases hl : u.data with
      | nil =>
        rw [hl] at hc
        exact absurd hc (by simp)
      | cons d ds =>
        rw [hl] at hc
        injection hc with hc
        rw [hl] at h4
        rw [← hc]
        exact h4
    have hd : ("www." ++ u).data = wwwPat ++ u.data := rfl
    have hn : normalizeList ("www." ++ u).data = normalizeList u.data := by
      rw [hd]
      exact normalize_www u.data h1 h2 h3 hhead
    exact congrArg String.mk hn

/-- Concrete instances of the three C5 invariances: letter case, a
trailing slash, and a leading `www.` do not change the normalised URL. -/
theorem C5_normalize_characterization_witness :
    _normalize_url "HTTP://Example.com/A" = _normalize_url "http://example.com/a" ∧
    _normalize_url ("http://example.com/sub" ++ "/") = _normalize_url "http://example.com/sub" ∧
    _normalize_url ("www." ++ "example.com") = _normalize_url "example.com" :=
  ⟨(C5_normalize_characterization "http://example.com/a").1 "HTTP://Example.com/A"
      (by decide) (by decide),
   (C5_normalize_characterization "http://example.com/sub").2.1
      (by decide) (by decide) (by decide),
   (C5_normalize_characterization "example.com").2.2
      (by decide) (by decide) (by decide) (by decide)⟩

end UrlCheck
